import Mathlib

set_option maxHeartbeats 1000000

namespace InlineIpld

/-- Content identifier, as built by CidGeneric::new(version, codec, multihash):
a CID version, a multicodec tag, and the multihash bytes.  The core treats
these as opaque values with decidable equality. -/
structure Cid where
  version : Nat
  codecTag : Nat
  hash : List Nat
deriving DecidableEq, Repr

/-- The document value: libipld's Ipld enum.  A BTreeMap String Ipld is
represented as an association list; the BTreeMap representation invariant
(strictly ascending keys) is the predicate ipldWF below.  Iterating a
BTreeMap yields entries in ascending key order, which for the association
list is simply list order. -/
inductive Ipld where
  | null
  | bool (b : Bool)
  | integer (i : Int)
  | float (bits : Nat)
  | bytes (bs : List Nat)
  | str (s : String)
  | list (xs : List Ipld)
  | map (m : List (String × Ipld))
  | link (c : Cid)
deriving Repr

/-- Codec, digest and CID-version configuration, §6.2 of the spec: the codec
is an opaque total encoder with a numeric tag, the digester an opaque hash
function.  The Rust Extractor is generic over these (type parameters C, D). -/
structure CidCfg where
  encode : Ipld → List Nat
  codecTag : Nat
  digest : List Nat → List Nat
  version : Nat

/-- cid::new from src/inline_ipld/src/cid.rs: encode the value, digest the
bytes, and build the CID from version, codec tag and multihash. -/
def cidNew (cfg : CidCfg) (x : Ipld) : Cid :=
  { version := cfg.version, codecTag := cfg.codecTag, hash := cfg.digest (cfg.encode x) }

/-- Byte-lexicographic string order (Rust String Ord), decided over the
underlying character list; UTF-8 byte order and code-point order agree. -/
def keyLtB (a b : String) : Bool := decide (a.data < b.data)

theorem keyLtB_iff {a b : String} : keyLtB a b = true ↔ a < b := by
  rw [keyLtB, decide_eq_true_eq, String.lt_iff_toList_lt]
  exact Iff.rfl

/-- Keys of an association list strictly ascend (byte-lexicographic String
order): the BTreeMap representation invariant. -/
def keysSorted : List (String × Ipld) → Bool
  | [] => true
  | [_] => true
  | (k1, _) :: (k2, v2) :: rest => keyLtB k1 k2 && keysSorted ((k2, v2) :: rest)

mutual
/-- Well-formedness: every map in the tree satisfies the BTreeMap invariant. -/
def ipldWF : Ipld → Bool
  | .list xs => ipldWFList xs
  | .map m => keysSorted m && ipldWFEntries m
  | _ => true

def ipldWFList : List Ipld → Bool
  | [] => true
  | x :: xs => ipldWF x && ipldWFList xs

def ipldWFEntries : List (String × Ipld) → Bool
  | [] => true
  | (_, v) :: rest => ipldWF v && ipldWFEntries rest
end

mutual
/-- Number of nodes of the document tree. -/
def numNodes : Ipld → Nat
  | .list xs => 1 + numNodesList xs
  | .map m => 1 + numNodesEntries m
  | _ => 1

def numNodesList : List Ipld → Nat
  | [] => 0
  | x :: xs => numNodes x + numNodesList xs

def numNodesEntries : List (String × Ipld) → Nat
  | [] => 0
  | (_, v) :: rest => numNodes v + numNodesEntries rest
end

theorem numNodes_pos (x : Ipld) : 0 < numNodes x := by
  cases x <;> simp [numNodes]

mutual
/-- Recursive characterization of post-order traversal: children first
(list order for lists, entry order -- i.e. ascending key order under the
BTreeMap invariant -- for maps), then the node itself. -/
def pot : Ipld → List Ipld
  | .list xs => potList xs ++ [.list xs]
  | .map m => potEntries m ++ [.map m]
  | x => [x]

def potList : List Ipld → List Ipld
  | [] => []
  | x :: xs => pot x ++ potList xs

def potEntries : List (String × Ipld) → List Ipld
  | [] => []
  | (_, v) :: rest => pot v ++ potEntries rest
end

theorem numNodesList_append (a b : List Ipld) :
    numNodesList (a ++ b) = numNodesList a + numNodesList b := by
  induction a with
  | nil => simp [numNodesList]
  | cons x xs ih => simp [numNodesList, ih]; omega

theorem numNodesList_reverse (a : List Ipld) : numNodesList a.reverse = numNodesList a := by
  induction a with
  | nil => rfl
  | cons x xs ih =>
      simp [numNodesList, List.reverse_cons, numNodesList_append, ih]
      omega

theorem numNodesList_entries (m : List (String × Ipld)) :
    numNodesList (m.map Prod.snd) = numNodesEntries m := by
  induction m with
  | nil => rfl
  | cons kv rest ih => cases kv; simp [numNodesList, numNodesEntries, ih]

/-- The two-stack post-order machine of PostOrderIpldIter::next
(src/inline_ipld/src/iterator/post_order.rs): pop the discovery (inbound)
stack; a Map is pushed to the emission (outbound) stack and its values are
pushed onto the inbound stack (iterated in ascending key order, so the last
value ends on top); Lists likewise; leaves go straight to outbound.  When
inbound is empty the accumulated outbound stack is popped one element per
next() call, so the full yield sequence is the outbound stack read
top-to-bottom.  Stacks are modelled head-first (head = top of stack). -/
def poDrain : List Ipld → List Ipld → List Ipld
  | [], outb => outb
  | .map m :: rest, outb => poDrain ((m.map Prod.snd).reverse ++ rest) (.map m :: outb)
  | .list xs :: rest, outb => poDrain (xs.reverse ++ rest) (.list xs :: outb)
  | .null :: rest, outb => poDrain rest (.null :: outb)
  | .bool b :: rest, outb => poDrain rest (.bool b :: outb)
  | .integer i :: rest, outb => poDrain rest (.integer i :: outb)
  | .float f :: rest, outb => poDrain rest (.float f :: outb)
  | .bytes bs :: rest, outb => poDrain rest (.bytes bs :: outb)
  | .str s :: rest, outb => poDrain rest (.str s :: outb)
  | .link c :: rest, outb => poDrain rest (.link c :: outb)
termination_by inb _ => numNodesList inb
decreasing_by
  all_goals
    simp only [numNodesList_append, numNodesList_reverse, numNodesList_entries,
      numNodesList, numNodes]
    omega

/-- Full yield sequence of the post-order iterator over a document. -/
def postOrderSeq (x : Ipld) : List Ipld := poDrain [x] []

/-- Post-order flattening of an inbound stack (head = top): the emission
sequence the machine will produce from it. -/
def potStack : List Ipld → List Ipld
  | [] => []
  | x :: rest => potStack rest ++ pot x

theorem potStack_append (a b : List Ipld) :
    potStack (a ++ b) = potStack b ++ potStack a := by
  induction a with
  | nil => simp [potStack]
  | cons x xs ih => simp [potStack, ih]

theorem potStack_reverse (l : List Ipld) : potStack l.reverse = potList l := by
  induction l with
  | nil => rfl
  | cons x xs ih => simp [List.reverse_cons, potStack_append, potStack, potList, ih]

theorem potList_entries (m : List (String × Ipld)) :
    potList (m.map Prod.snd) = potEntries m := by
  induction m with
  | nil => rfl
  | cons kv rest ih => cases kv; simp [potList, potEntries, ih]

/-- The two-stack machine emits exactly the recursive post-order flattening
of its inbound stack, followed by whatever was already outbound. -/
theorem poDrain_potStack : ∀ inb outb, poDrain inb outb = potStack inb ++ outb := by
  intro inb outb
  induction inb, outb using poDrain.induct with
  | case1 outb => simp [poDrain, potStack]
  | case2 m rest outb ih =>
      rw [poDrain, ih]
      simp [potStack, potStack_append, potStack_reverse, potList_entries, pot]
  | case3 xs rest outb ih =>
      rw [poDrain, ih]
      simp [potStack, potStack_append, potStack_reverse, pot]
  | case4 rest outb ih =>
      rw [poDrain, ih]
      simp [potStack, pot]
  | case5 b rest outb ih =>
      rw [poDrain, ih]
      simp [potStack, pot]
  | case6 i rest outb ih =>
      rw [poDrain, ih]
      simp [potStack, pot]
  | case7 f rest outb ih =>
      rw [poDrain, ih]
      simp [potStack, pot]
  | case8 bs rest outb ih =>
      rw [poDrain, ih]
      simp [potStack, pot]
  | case9 s rest outb ih =>
      rw [poDrain, ih]
      simp [potStack, pot]
  | case10 c rest outb ih =>
      rw [poDrain, ih]
      simp [potStack, pot]

/-- Iterator yield sequence = recursive post-order. -/
theorem postOrderSeq_eq_pot (x : Ipld) : postOrderSeq x = pot x := by
  simp [postOrderSeq, poDrain_potStack, potStack]

/-- Children of a node, in yield order: list elements in sequence order, map
values in entry (ascending-key) order, nothing for leaves. -/
def childrenOf : Ipld → List Ipld
  | .list xs => xs
  | .map m => m.map Prod.snd
  | _ => []

theorem pot_children (x : Ipld) :
    pot x = ((childrenOf x).map pot).flatten ++ [x] := by
  cases x <;> simp [pot, childrenOf, potList, potEntries]
  case list xs =>
    induction xs with
    | nil => simp [potList]
    | cons y ys ih => simp [potList, ih]
  case map m =>
    induction m with
    | nil => simp [potEntries]
    | cons kv rest ih => cases kv; simp [potEntries, ih]

mutual
theorem pot_length : (x : Ipld) → (pot x).length = numNodes x
  | .null | .bool _ | .integer _ | .float _ | .bytes _ | .str _ | .link _ => by
      simp [pot, numNodes]
  | .list xs => by simp [pot, numNodes, potList_length xs]; omega
  | .map m => by simp [pot, numNodes, potEntries_length m]; omega

theorem potList_length : (xs : List Ipld) → (potList xs).length = numNodesList xs
  | [] => by simp [potList, numNodesList]
  | x :: rest => by simp [potList, numNodesList, pot_length x, potList_length rest]

theorem potEntries_length :
    (m : List (String × Ipld)) → (potEntries m).length = numNodesEntries m
  | [] => by simp [potEntries, numNodesEntries]
  | (_, v) :: rest => by
      simp [potEntries, numNodesEntries, pot_length v, potEntries_length rest]
end

theorem keysSorted_chain :
    (m : List (String × Ipld)) → keysSorted m = true → List.Chain' (fun a b => a.1 < b.1) m
  | [], _ => List.chain'_nil
  | [kv], _ => List.chain'_singleton kv
  | (k1, v1) :: (k2, v2) :: rest, h => by
      rw [keysSorted, Bool.and_eq_true] at h
      exact List.Chain'.cons (keyLtB_iff.mp h.1) (keysSorted_chain ((k2, v2) :: rest) h.2)

instance : IsTrans (String × Ipld) (fun a b => a.1 < b.1) :=
  ⟨fun _ _ _ h1 h2 => lt_trans h1 h2⟩

/-- C3.  The post-order iterator machine yields, for every node: all
descendants strictly before the node itself, each tree position exactly once
(the sequence satisfies the post-order recurrence, and its length is the
node count), siblings left-to-right: list elements in sequence order and map
values in entry order, which under the BTreeMap invariant carried by every
Rust value is strictly ascending byte-lexicographic key order. -/
theorem postOrder_yields_descendants_first (x : Ipld) (hwf : ipldWF x = true) :
    postOrderSeq x = ((childrenOf x).map postOrderSeq).flatten ++ [x]
      ∧ (postOrderSeq x).length = numNodes x
      ∧ (∀ m, x = .map m → List.Pairwise (fun a b => a.1 < b.1) m) := by
  refine ⟨?_, ?_, ?_⟩
  · have h1 : (childrenOf x).map postOrderSeq = (childrenOf x).map pot := by
      apply List.map_congr_left
      intro a _
      exact postOrderSeq_eq_pot a
    rw [postOrderSeq_eq_pot, h1, ← pot_children]
  · rw [postOrderSeq_eq_pot]; exact pot_length x
  · intro m hm
    subst hm
    rw [ipldWF, Bool.and_eq_true] at hwf
    exact List.chain'_iff_pairwise.mp (keysSorted_chain m hwf.1)

/-- is_delimiter_next (src/inline_ipld/src/iterator/post_order.rs): the
peeked next yield of the walk is a Map whose key sequence is exactly "/". -/
def isSlashNext : List Ipld → Bool
  | .map m :: _ => m.map Prod.fst == ["/"]
  | _ => false

/-- Whether an optional looked-up value is an Ipld::Link. -/
def isLinkOpt : Option Ipld → Bool
  | some (.link _) => true
  | _ => false

/-- Extractor::next (src/inline_ipld/src/extractor.rs), run to completion
over the post-order token sequence.  The rebuild stack is head-first (head =
top of the Rust Vec).  A result of none models a panic: a pop/expect on an
empty stack, a split_off past the base, or the two-key branch finding a
non-Link on top.  The Bool argument models the pending iterator.next() that
skips the just-recognised delimiter token.  On walk exhaustion each
remaining stack entry is popped and emitted with its freshly computed CID
(in a well-formed run there is exactly one, the rewritten root). -/
def extractGo (cfg : CidCfg) : List Ipld → List Ipld → Bool → Option (List (Cid × Ipld))
  | [], stack, _ => some (stack.map (fun x => (cidNew cfg x, x)))
  | _ :: rest, stack, true => extractGo cfg rest stack false
  | .list xs :: rest, stack, false =>
      if xs.length ≤ stack.length then
        extractGo cfg rest (.list ((stack.take xs.length).reverse) :: stack.drop xs.length) false
      else none
  | .map m :: rest, stack, false =>
      if (m.lookup "data").isSome && m.length == 1 && isSlashNext rest then
        match stack with
        | child :: stk =>
            Option.map (fun ps => (cidNew cfg child, child) :: ps)
              (extractGo cfg rest (.link (cidNew cfg child) :: stk) true)
        | [] => none
      else if (m.lookup "data").isSome && m.length == 2 && isSlashNext rest
          && isLinkOpt (m.lookup "link") then
        match stack with
        | .link c :: child :: stk =>
            Option.map (fun ps => (c, child) :: ps)
              (extractGo cfg rest (.link c :: stk) true)
        | _ => none
      else
        if m.length ≤ stack.length then
          extractGo cfg rest
            (.map ((m.map Prod.fst).zip ((stack.take m.length).reverse)) :: stack.drop m.length)
            false
        else none
  | x :: rest, stack, false => extractGo cfg rest (x :: stack) false

/-- Collected output of Extractor::new(n, ...) iterated to exhaustion. -/
def extractRun (cfg : CidCfg) (n : Ipld) : Option (List (Cid × Ipld)) :=
  extractGo cfg (postOrderSeq n) [] false

/-- Classification of a node as an inline delimiter (§3.2): a single-key "/"
map whose value is exactly the one-entry data map (inherit form) or the
two-entry data-and-Link map (explicit form).  Anything else is ordinary
data.  Association lists here reflect ascending BTreeMap key order
("data" before "link"). -/
def delimParts : Ipld → Option (Ipld × Option Cid)
  | .map [("/", .map [("data", dv)])] => some (dv, none)
  | .map [("/", .map [("data", dv), ("link", .link c)])] => some (dv, some c)
  | _ => none

/-- The root-shape test of Extractor::next for the inner map of a delimiter:
it has a "data" entry, and either exactly one key, or exactly two keys with
a Link under "link".  A node with this shape fires a delimiter branch
exactly when the next walk token is a single-key "/" map. -/
def fireShape : Ipld → Bool
  | .map m =>
      (m.lookup "data").isSome &&
        (m.length == 1 || (m.length == 2 && isLinkOpt (m.lookup "link")))
  | _ => false

mutual
/-- The rewritten form of a node after extraction: every recognised
delimiter is replaced by its Link (computed from the rewritten data in
inherit form, taken verbatim in explicit form); everything else is rebuilt
with rewritten children. -/
def rewriteF (cfg : CidCfg) : Ipld → Ipld
  | .map [("/", .map [("data", dv)])] => .link (cidNew cfg (rewriteF cfg dv))
  | .map [("/", .map [("data", _dv), ("link", .link c)])] => .link c
  | .list xs => .list (rewriteFList cfg xs)
  | .map m => .map (rewriteFEntries cfg m)
  | x => x

def rewriteFList (cfg : CidCfg) : List Ipld → List Ipld
  | [] => []
  | x :: xs => rewriteF cfg x :: rewriteFList cfg xs

def rewriteFEntries (cfg : CidCfg) : List (String × Ipld) → List (String × Ipld)
  | [] => []
  | (k, v) :: rest => (k, rewriteF cfg v) :: rewriteFEntries cfg rest
end

mutual
/-- The (id, block) pairs the Extractor emits for the delimiters inside a
node, children before parents, siblings left-to-right. -/
def pairsF (cfg : CidCfg) : Ipld → List (Cid × Ipld)
  | .map [("/", .map [("data", dv)])] =>
      pairsF cfg dv ++ [(cidNew cfg (rewriteF cfg dv), rewriteF cfg dv)]
  | .map [("/", .map [("data", dv), ("link", .link c)])] =>
      pairsF cfg dv ++ [(c, rewriteF cfg dv)]
  | .list xs => pairsFList cfg xs
  | .map m => pairsFEntries cfg m
  | _ => []

def pairsFList (cfg : CidCfg) : List Ipld → List (Cid × Ipld)
  | [] => []
  | x :: xs => pairsF cfg x ++ pairsFList cfg xs

def pairsFEntries (cfg : CidCfg) : List (String × Ipld) → List (Cid × Ipld)
  | [] => []
  | (_, v) :: rest => pairsF cfg v ++ pairsFEntries cfg rest
end

theorem delimParts_some_inherit {n : Ipld} {dv : Ipld}
    (h : delimParts n = some (dv, none)) :
    n = .map [("/", .map [("data", dv)])] := by
  unfold delimParts at h
  split at h
  · simp_all
  · simp_all
  · simp_all

theorem delimParts_some_explicit {n : Ipld} {dv : Ipld} {c : Cid}
    (h : delimParts n = some (dv, some c)) :
    n = .map [("/", .map [("data", dv), ("link", .link c)])] := by
  unfold delimParts at h
  split at h
  · simp_all
  · simp_all
  · simp_all

theorem rewriteF_map_ord (cfg : CidCfg) (m : List (String × Ipld))
    (h : delimParts (.map m) = none) :
    rewriteF cfg (.map m) = .map (rewriteFEntries cfg m) := by
  unfold rewriteF
  split
  · simp_all [delimParts]
  · simp_all [delimParts]
  · simp_all
  · simp_all
  · rename_i x h1 h2 h3 h4
    exact absurd rfl (h4 m)

theorem pairsF_map_ord (cfg : CidCfg) (m : List (String × Ipld))
    (h : delimParts (.map m) = none) :
    pairsF cfg (.map m) = pairsFEntries cfg m := by
  unfold pairsF
  split
  · simp_all [delimParts]
  · simp_all [delimParts]
  · simp_all
  · simp_all
  · rename_i x h1 h2 h3 h4
    exact absurd rfl (h4 m)

theorem rewriteFList_length (cfg : CidCfg) (xs : List Ipld) :
    (rewriteFList cfg xs).length = xs.length := by
  induction xs with
  | nil => rfl
  | cons x rest ih => simp [rewriteFList, ih]

theorem rewriteFEntries_length (cfg : CidCfg) (m : List (String × Ipld)) :
    (rewriteFEntries cfg m).length = m.length := by
  induction m with
  | nil => rfl
  | cons kv rest ih => cases kv; simp [rewriteFEntries, ih]

theorem rewriteFEntries_keys (cfg : CidCfg) (m : List (String × Ipld)) :
    (rewriteFEntries cfg m).map Prod.fst = m.map Prod.fst := by
  induction m with
  | nil => rfl
  | cons kv rest ih => cases kv; simp [rewriteFEntries, ih]

theorem zip_fst_snd {α β : Type} (l : List (α × β)) :
    (l.map Prod.fst).zip (l.map Prod.snd) = l := by
  induction l with
  | nil => rfl
  | cons kv rest ih => cases kv; simp [List.zip, ih]

/-- The first token a post-order walk yields for any subtree is a childless
node, hence never a single-key "/" map: delimiter recognition never fires
across a sibling boundary. -/
theorem pot_head_not_slash : (x : Ipld) → ∀ (rest : List Ipld),
    isSlashNext (pot x ++ rest) = false
  | .null => fun rest => by simp [pot, isSlashNext]
  | .bool _ => fun rest => by simp [pot, isSlashNext]
  | .integer _ => fun rest => by simp [pot, isSlashNext]
  | .float _ => fun rest => by simp [pot, isSlashNext]
  | .bytes _ => fun rest => by simp [pot, isSlashNext]
  | .str _ => fun rest => by simp [pot, isSlashNext]
  | .link _ => fun rest => by simp [pot, isSlashNext]
  | .list [] => fun rest => by simp [pot, potList, isSlashNext]
  | .list (y :: ys) => fun rest => by
      have h := pot_head_not_slash y (potList ys ++ [.list (y :: ys)] ++ rest)
      simpa [pot, potList, List.append_assoc] using h
  | .map [] => fun rest => by simp [pot, potEntries, isSlashNext]
  | .map ((k, v) :: tail) => fun rest => by
      have h := pot_head_not_slash v (potEntries tail ++ [.map ((k, v) :: tail)] ++ rest)
      simpa [pot, potEntries, List.append_assoc] using h

theorem numNodes_mem_list {x : Ipld} : {xs : List Ipld} → x ∈ xs →
    numNodes x ≤ numNodesList xs
  | [], h => absurd h (List.not_mem_nil x)
  | y :: ys, h => by
      rcases List.mem_cons.mp h with h1 | h2
      · subst h1; simp only [numNodesList]; omega
      · have := numNodes_mem_list h2
        simp only [numNodesList]; omega

theorem numNodes_mem_entries {k : String} {v : Ipld} : {m : List (String × Ipld)} →
    (k, v) ∈ m → numNodes v ≤ numNodesEntries m
  | [], h => absurd h (List.not_mem_nil (k, v))
  | kv :: rest, h => by
      rcases List.mem_cons.mp h with h1 | h2
      · subst h1; simp only [numNodesEntries]; omega
      · have := numNodes_mem_entries h2
        cases kv
        simp only [numNodesEntries]
        omega

theorem ipldWFList_mem {x : Ipld} : {xs : List Ipld} → ipldWFList xs = true →
    x ∈ xs → ipldWF x = true
  | [], _, h => absurd h (List.not_mem_nil x)
  | y :: ys, hwf, h => by
      rw [ipldWFList, Bool.and_eq_true] at hwf
      rcases List.mem_cons.mp h with h1 | h2
      · subst h1; exact hwf.1
      · exact ipldWFList_mem hwf.2 h2

theorem ipldWFEntries_mem {k : String} {v : Ipld} : {m : List (String × Ipld)} →
    ipldWFEntries m = true → (k, v) ∈ m → ipldWF v = true
  | [], _, h => absurd h (List.not_mem_nil (k, v))
  | kv :: rest, hwf, h => by
      cases kv with
      | mk k2 v2 =>
          rw [ipldWFEntries, Bool.and_eq_true] at hwf
          rcases List.mem_cons.mp h with h1 | h2
          · cases h1; exact hwf.1
          · exact ipldWFEntries_mem hwf.2 h2

theorem rewriteF_delim1 (cfg : CidCfg) (dv : Ipld) :
    rewriteF cfg (.map [("/", .map [("data", dv)])])
      = .link (cidNew cfg (rewriteF cfg dv)) := rfl

theorem rewriteF_delim2 (cfg : CidCfg) (dv : Ipld) (c : Cid) :
    rewriteF cfg (.map [("/", .map [("data", dv), ("link", .link c)])]) = .link c := rfl

theorem pairsF_delim1 (cfg : CidCfg) (dv : Ipld) :
    pairsF cfg (.map [("/", .map [("data", dv)])])
      = pairsF cfg dv ++ [(cidNew cfg (rewriteF cfg dv), rewriteF cfg dv)] := rfl

theorem pairsF_delim2 (cfg : CidCfg) (dv : Ipld) (c : Cid) :
    pairsF cfg (.map [("/", .map [("data", dv), ("link", .link c)])])
      = pairsF cfg dv ++ [(c, rewriteF cfg dv)] := rfl

theorem rewriteF_list_eq (cfg : CidCfg) (xs : List Ipld) :
    rewriteF cfg (.list xs) = .list (rewriteFList cfg xs) := rfl

theorem pairsF_list_eq (cfg : CidCfg) (xs : List Ipld) :
    pairsF cfg (.list xs) = pairsFList cfg xs := rfl

/-- Under the BTreeMap invariant, a map that does not form a delimiter when
wrapped under a single "/" key also fails the extractor's root-shape test:
the lookup-based conditions of Extractor::next coincide with the exact
shapes of delimParts. -/
theorem fireShape_of_wf_none {v : Ipld} (hwf : ipldWF v = true)
    (hnone : delimParts (.map [("/", v)]) = none) : fireShape v = false := by
  cases v with
  | map mv =>
      rcases mv with _ | ⟨⟨k1, v1⟩, mtail⟩
      · rfl
      rcases mtail with _ | ⟨⟨k2, v2⟩, mtail2⟩
      · by_cases hk : k1 = "data"
        · subst hk
          simp [delimParts] at hnone
        · have hne : ("data" == k1) = false := by
            simp [Ne.symm hk]
          simp [fireShape, List.lookup, hne]
      rcases mtail2 with _ | ⟨kv3, mtail3⟩
      · have hsort : k1 < k2 := by
          rw [ipldWF, Bool.and_eq_true] at hwf
          have h1 := hwf.1
          rw [keysSorted, Bool.and_eq_true] at h1
          exact keyLtB_iff.mp h1.1
        by_cases hk1 : k1 = "data"
        · subst hk1
          by_cases hk2 : k2 = "link"
          · subst hk2
            cases v2 with
            | link c => simp [delimParts] at hnone
            | null => simp [fireShape, List.lookup, isLinkOpt]
            | bool b => simp [fireShape, List.lookup, isLinkOpt]
            | integer i => simp [fireShape, List.lookup, isLinkOpt]
            | float f => simp [fireShape, List.lookup, isLinkOpt]
            | bytes bs => simp [fireShape, List.lookup, isLinkOpt]
            | str s => simp [fireShape, List.lookup, isLinkOpt]
            | list xs => simp [fireShape, List.lookup, isLinkOpt]
            | map mm => simp [fireShape, List.lookup, isLinkOpt]
          · have hne2 : ("link" == k2) = false := by simp [Ne.symm hk2]
            simp [fireShape, List.lookup, hne2, isLinkOpt]
        · have hne1 : ("data" == k1) = false := by simp [Ne.symm hk1]
          by_cases hk2 : k2 = "data"
          · subst hk2
            by_cases hl1 : k1 = "link"
            · subst hl1
              have : ¬ ("link" < "data") := by
                rw [String.lt_iff_toList_lt]
                decide
              exact absurd hsort this
            · have hne3 : ("link" == k1) = false := by simp [Ne.symm hl1]
              simp [fireShape, List.lookup, hne1, hne3, isLinkOpt]
          · have hne4 : ("data" == k2) = false := by simp [Ne.symm hk2]
            simp [fireShape, List.lookup, hne1, hne4]
      · simp [fireShape]
  | null => rfl
  | bool b => rfl
  | integer i => rfl
  | float f => rfl
  | bytes bs => rfl
  | str s => rfl
  | list xs => rfl
  | link c => rfl

/-- Processing the concatenated post-order tokens of a list's elements
rebuilds each element onto the stack (last element on top) and emits their
pairs left-to-right, provided the decomposition equation holds for each
element and the continuation cannot make the final element's root fire. -/
theorem extract_chain_list (cfg : CidCfg) :
    ∀ (xs : List Ipld),
      (∀ x ∈ xs, ∀ (rest stack : List Ipld), (fireShape x && isSlashNext rest) = false →
        extractGo cfg (pot x ++ rest) stack false
          = Option.map (fun ps => pairsF cfg x ++ ps)
              (extractGo cfg rest (rewriteF cfg x :: stack) false)) →
      ∀ (rest stack : List Ipld),
        (∀ z, xs.getLast? = some z → (fireShape z && isSlashNext rest) = false) →
        extractGo cfg (potList xs ++ rest) stack false
          = Option.map (fun ps => pairsFList cfg xs ++ ps)
              (extractGo cfg rest ((rewriteFList cfg xs).reverse ++ stack) false)
  | [], _, rest, stack, _ => by
      simp [potList, pairsFList, rewriteFList]
  | x :: xs', IH, rest, stack, hlast => by
      have hx : ∀ (rest₁ stack₁ : List Ipld), (fireShape x && isSlashNext rest₁) = false →
          extractGo cfg (pot x ++ rest₁) stack₁ false
            = Option.map (fun ps => pairsF cfg x ++ ps)
                (extractGo cfg rest₁ (rewriteF cfg x :: stack₁) false) :=
        IH x (List.mem_cons_self x xs')
      have step1 : extractGo cfg (pot x ++ (potList xs' ++ rest)) stack false
          = Option.map (fun ps => pairsF cfg x ++ ps)
              (extractGo cfg (potList xs' ++ rest) (rewriteF cfg x :: stack) false) := by
        apply hx
        cases xs' with
        | nil =>
            simpa [potList] using hlast x rfl
        | cons y ys =>
            have := pot_head_not_slash y (potList ys ++ rest)
            simp only [potList, List.append_assoc] at this ⊢
            rw [this, Bool.and_false]
      have step2 : extractGo cfg (potList xs' ++ rest) (rewriteF cfg x :: stack) false
          = Option.map (fun ps => pairsFList cfg xs' ++ ps)
              (extractGo cfg rest
                ((rewriteFList cfg xs').reverse ++ (rewriteF cfg x :: stack)) false) := by
        apply extract_chain_list cfg xs' (fun z hz => IH z (List.mem_cons_of_mem x hz))
        intro z hz
        cases xs' with
        | nil => simp at hz
        | cons y ys =>
            apply hlast
            rw [List.getLast?_cons_cons]
            exact hz
      calc extractGo cfg (potList (x :: xs') ++ rest) stack false
        = extractGo cfg (pot x ++ (potList xs' ++ rest)) stack false := by
            simp [potList, List.append_assoc]
      _ = Option.map (fun ps => pairsF cfg x ++ ps)
            (extractGo cfg (potList xs' ++ rest) (rewriteF cfg x :: stack) false) := step1
      _ = Option.map (fun ps => pairsF cfg x ++ ps)
            (Option.map (fun ps => pairsFList cfg xs' ++ ps)
              (extractGo cfg rest
                ((rewriteFList cfg xs').reverse ++ (rewriteF cfg x :: stack)) false)) := by
            rw [step2]
      _ = Option.map (fun ps => pairsFList cfg (x :: xs') ++ ps)
            (extractGo cfg rest ((rewriteFList cfg (x :: xs')).reverse ++ stack) false) := by
            rw [Option.map_map]
            simp only [rewriteFList, pairsFList, List.reverse_cons, List.append_assoc,
              List.singleton_append]
            rfl

/-- Entry-list version of the chain lemma: rebuild every map value onto the
stack (last entry's value on top) and emit their pairs left-to-right. -/
theorem extract_chain_entries (cfg : CidCfg) :
    ∀ (m : List (String × Ipld)),
      (∀ kv ∈ m, ∀ (rest stack : List Ipld),
        (fireShape (Prod.snd kv) && isSlashNext rest) = false →
        extractGo cfg (pot (Prod.snd kv) ++ rest) stack false
          = Option.map (fun ps => pairsF cfg (Prod.snd kv) ++ ps)
              (extractGo cfg rest (rewriteF cfg (Prod.snd kv) :: stack) false)) →
      ∀ (rest stack : List Ipld),
        (∀ kv, m.getLast? = some kv → (fireShape (Prod.snd kv) && isSlashNext rest) = false) →
        extractGo cfg (potEntries m ++ rest) stack false
          = Option.map (fun ps => pairsFEntries cfg m ++ ps)
              (extractGo cfg rest
                (((rewriteFEntries cfg m).map Prod.snd).reverse ++ stack) false)
  | [], _, rest, stack, _ => by
      simp [potEntries, pairsFEntries, rewriteFEntries]
  | (k, v) :: m', IH, rest, stack, hlast => by
      have hv : ∀ (rest₁ stack₁ : List Ipld), (fireShape v && isSlashNext rest₁) = false →
          extractGo cfg (pot v ++ rest₁) stack₁ false
            = Option.map (fun ps => pairsF cfg v ++ ps)
                (extractGo cfg rest₁ (rewriteF cfg v :: stack₁) false) :=
        IH (k, v) (List.mem_cons_self (k, v) m')
      have step1 : extractGo cfg (pot v ++ (potEntries m' ++ rest)) stack false
          = Option.map (fun ps => pairsF cfg v ++ ps)
              (extractGo cfg (potEntries m' ++ rest) (rewriteF cfg v :: stack) false) := by
        apply hv
        cases m' with
        | nil =>
            simpa [potEntries] using hlast (k, v) rfl
        | cons kw ms =>
            have := pot_head_not_slash (Prod.snd kw) (potEntries ms ++ rest)
            cases kw with
            | mk k2 v2 =>
                simp only [potEntries, List.append_assoc] at this ⊢
                rw [this, Bool.and_false]
      have step2 : extractGo cfg (potEntries m' ++ rest) (rewriteF cfg v :: stack) false
          = Option.map (fun ps => pairsFEntries cfg m' ++ ps)
              (extractGo cfg rest
                (((rewriteFEntries cfg m').map Prod.snd).reverse
                  ++ (rewriteF cfg v :: stack)) false) := by
        apply extract_chain_entries cfg m' (fun z hz => IH z (List.mem_cons_of_mem (k, v) hz))
        intro z hz
        cases m' with
        | nil => simp at hz
        | cons kw ms =>
            apply hlast
            rw [List.getLast?_cons_cons]
            exact hz
      calc extractGo cfg (potEntries ((k, v) :: m') ++ rest) stack false
        = extractGo cfg (pot v ++ (potEntries m' ++ rest)) stack false := by
            simp [potEntries, List.append_assoc]
      _ = Option.map (fun ps => pairsF cfg v ++ ps)
            (extractGo cfg (potEntries m' ++ rest) (rewriteF cfg v :: stack) false) := step1
      _ = Option.map (fun ps => pairsF cfg v ++ ps)
            (Option.map (fun ps => pairsFEntries cfg m' ++ ps)
              (extractGo cfg rest
                (((rewriteFEntries cfg m').map Prod.snd).reverse
                  ++ (rewriteF cfg v :: stack)) false)) := by
            rw [step2]
      _ = Option.map (fun ps => pairsFEntries cfg ((k, v) :: m') ++ ps)
            (extractGo cfg rest
              (((rewriteFEntries cfg ((k, v) :: m')).map Prod.snd).reverse ++ stack) false) := by
            rw [Option.map_map]
            simp only [rewriteFEntries, pairsFEntries, List.map_cons, List.reverse_cons,
              List.append_assoc, List.singleton_append]
            rfl

/-- Main decomposition of an Extractor run, by strong induction on tree
size: the machine consumes the post-order tokens of a well-formed node,
emits exactly its delimiter pairs (children before parents), and leaves its
rewritten form on top of the stack -- provided the continuation cannot make
the node's own root fire as a delimiter body. -/
theorem extract_decompN (cfg : CidCfg) :
    ∀ (N : Nat) (n : Ipld), numNodes n ≤ N → ∀ (rest stack : List Ipld),
      ipldWF n = true → (fireShape n && isSlashNext rest) = false →
      extractGo cfg (pot n ++ rest) stack false
        = Option.map (fun ps => pairsF cfg n ++ ps)
            (extractGo cfg rest (rewriteF cfg n :: stack) false) := by
  intro N
  induction N with
  | zero =>
      intro n hn
      have := numNodes_pos n
      omega
  | succ N IHN =>
    intro n hn rest stack hwf hfire
    cases hd : delimParts n with
    | some pr =>
      obtain ⟨dv, oc⟩ := pr
      cases oc with
      | none =>
          have hshape := delimParts_some_inherit hd
          subst hshape
          have hwfdv : ipldWF dv = true := by
            simpa [ipldWF, ipldWFEntries, keysSorted] using hwf
          have hsz : numNodes dv ≤ N := by
            simp only [numNodes, numNodesEntries] at hn
            omega
          have hpot : pot (.map [("/", .map [("data", dv)])]) ++ rest
              = pot dv ++ ((Ipld.map [("data", dv)])
                  :: (Ipld.map [("/", .map [("data", dv)])]) :: rest) := by
            simp [pot, potEntries]
          rw [hpot, IHN dv hsz _ stack hwfdv (by simp [isSlashNext])]
          have hstep : extractGo cfg ((Ipld.map [("data", dv)])
                :: (Ipld.map [("/", .map [("data", dv)])]) :: rest)
                (rewriteF cfg dv :: stack) false
              = Option.map (fun ps => (cidNew cfg (rewriteF cfg dv), rewriteF cfg dv) :: ps)
                  (extractGo cfg rest
                    (.link (cidNew cfg (rewriteF cfg dv)) :: stack) false) := rfl
          rw [hstep, rewriteF_delim1, pairsF_delim1, Option.map_map]
          congr 1
          funext ps
          simp
      | some c =>
          have hshape := delimParts_some_explicit hd
          subst hshape
          have hdl : keyLtB "data" "link" = true := by rfl
          have hwfdv : ipldWF dv = true := by
            simpa [ipldWF, ipldWFEntries, keysSorted, hdl] using hwf
          have hsz : numNodes dv ≤ N := by
            simp only [numNodes, numNodesEntries] at hn
            omega
          have hpot : pot (.map [("/", .map [("data", dv), ("link", .link c)])]) ++ rest
              = pot dv ++ ((Ipld.link c)
                  :: (Ipld.map [("data", dv), ("link", .link c)])
                  :: (Ipld.map [("/", .map [("data", dv), ("link", .link c)])]) :: rest) := by
            simp [pot, potEntries]
          rw [hpot, IHN dv hsz _ stack hwfdv (by simp [isSlashNext])]
          have hstep : extractGo cfg ((Ipld.link c)
                :: (Ipld.map [("data", dv), ("link", .link c)])
                :: (Ipld.map [("/", .map [("data", dv), ("link", .link c)])]) :: rest)
                (rewriteF cfg dv :: stack) false
              = Option.map (fun ps => (c, rewriteF cfg dv) :: ps)
                  (extractGo cfg rest (.link c :: stack) false) := rfl
          rw [hstep, rewriteF_delim2, pairsF_delim2, Option.map_map]
          congr 1
          funext ps
          simp
    | none =>
      cases n with
      | null =>
          simp only [pot, List.singleton_append]
          rw [show extractGo cfg (Ipld.null :: rest) stack false
              = extractGo cfg rest (Ipld.null :: stack) false from rfl]
          rw [show rewriteF cfg Ipld.null = Ipld.null from rfl]
          rw [show pairsF cfg Ipld.null = [] from rfl]
          simp
      | bool b =>
          simp only [pot, List.singleton_append]
          rw [show extractGo cfg (Ipld.bool b :: rest) stack false
              = extractGo cfg rest (Ipld.bool b :: stack) false from rfl]
          rw [show rewriteF cfg (Ipld.bool b) = Ipld.bool b from rfl]
          rw [show pairsF cfg (Ipld.bool b) = [] from rfl]
          simp
      | integer i =>
          simp only [pot, List.singleton_append]
          rw [show extractGo cfg (Ipld.integer i :: rest) stack false
              = extractGo cfg rest (Ipld.integer i :: stack) false from rfl]
          rw [show rewriteF cfg (Ipld.integer i) = Ipld.integer i from rfl]
          rw [show pairsF cfg (Ipld.integer i) = [] from rfl]
          simp
      | float f =>
          simp only [pot, List.singleton_append]
          rw [show extractGo cfg (Ipld.float f :: rest) stack false
              = extractGo cfg rest (Ipld.float f :: stack) false from rfl]
          rw [show rewriteF cfg (Ipld.float f) = Ipld.float f from rfl]
          rw [show pairsF cfg (Ipld.float f) = [] from rfl]
          simp
      | bytes bs =>
          simp only [pot, List.singleton_append]
          rw [show extractGo cfg (Ipld.bytes bs :: rest) stack false
              = extractGo cfg rest (Ipld.bytes bs :: stack) false from rfl]
          rw [show rewriteF cfg (Ipld.bytes bs) = Ipld.bytes bs from rfl]
          rw [show pairsF cfg (Ipld.bytes bs) = [] from rfl]
          simp
      | str s =>
          simp only [pot, List.singleton_append]
          rw [show extractGo cfg (Ipld.str s :: rest) stack false
              = extractGo cfg rest (Ipld.str s :: stack) false from rfl]
          rw [show rewriteF cfg (Ipld.str s) = Ipld.str s from rfl]
          rw [show pairsF cfg (Ipld.str s) = [] from rfl]
          simp
      | link c =>
          simp only [pot, List.singleton_append]
          rw [show extractGo cfg (Ipld.link c :: rest) stack false
              = extractGo cfg rest (Ipld.link c :: stack) false from rfl]
          rw [show rewriteF cfg (Ipld.link c) = Ipld.link c from rfl]
          rw [show pairsF cfg (Ipld.link c) = [] from rfl]
          simp
      | list xs =>
          have hIH : ∀ x ∈ xs, ∀ (rest₁ stack₁ : List Ipld),
              (fireShape x && isSlashNext rest₁) = false →
              extractGo cfg (pot x ++ rest₁) stack₁ false
                = Option.map (fun ps => pairsF cfg x ++ ps)
                    (extractGo cfg rest₁ (rewriteF cfg x :: stack₁) false) := by
            intro x hx rest₁ stack₁ hf
            have hszx : numNodes x ≤ N := by
              have h1 := numNodes_mem_list hx
              simp only [numNodes] at hn
              omega
            have hwfx : ipldWF x = true := ipldWFList_mem (by simpa [ipldWF] using hwf) hx
            exact IHN x hszx rest₁ stack₁ hwfx hf
          have hpot : pot (.list xs) ++ rest = potList xs ++ ((Ipld.list xs) :: rest) := by
            simp [pot]
          rw [hpot, extract_chain_list cfg xs hIH _ stack
            (by intro z hz; simp [isSlashNext])]
          have hlen : xs.length ≤ ((rewriteFList cfg xs).reverse ++ stack).length := by
            simp [rewriteFList_length]
          have hstep : extractGo cfg ((Ipld.list xs) :: rest)
                ((rewriteFList cfg xs).reverse ++ stack) false
              = extractGo cfg rest (.list (rewriteFList cfg xs) :: stack) false := by
            rw [extractGo, if_pos hlen]
            have ht : (((rewriteFList cfg xs).reverse ++ stack).take xs.length)
                = (rewriteFList cfg xs).reverse :=
              List.take_left' (by simp [rewriteFList_length])
            have hdr : (((rewriteFList cfg xs).reverse ++ stack).drop xs.length) = stack :=
              List.drop_left' (by simp [rewriteFList_length])
            rw [ht, hdr, List.reverse_reverse]
          rw [hstep, rewriteF_list_eq, pairsF_list_eq]
      | map m =>
          have hKS : keysSorted m = true := by
            rw [ipldWF, Bool.and_eq_true] at hwf
            exact hwf.1
          have hWFE : ipldWFEntries m = true := by
            rw [ipldWF, Bool.and_eq_true] at hwf
            exact hwf.2
          have hIH : ∀ kv ∈ m, ∀ (rest₁ stack₁ : List Ipld),
              (fireShape (Prod.snd kv) && isSlashNext rest₁) = false →
              extractGo cfg (pot (Prod.snd kv) ++ rest₁) stack₁ false
                = Option.map (fun ps => pairsF cfg (Prod.snd kv) ++ ps)
                    (extractGo cfg rest₁ (rewriteF cfg (Prod.snd kv) :: stack₁) false) := by
            intro kv hkv rest₁ stack₁ hf
            obtain ⟨k, v⟩ := kv
            have hszx : numNodes v ≤ N := by
              have h1 := numNodes_mem_entries hkv
              simp only [numNodes] at hn
              omega
            have hwfx : ipldWF v = true := ipldWFEntries_mem hWFE hkv
            exact IHN v hszx rest₁ stack₁ hwfx hf
          have hlast : ∀ kv, m.getLast? = some kv →
              (fireShape (Prod.snd kv) && isSlashNext ((Ipld.map m) :: rest)) = false := by
            intro kv hkv
            by_cases hs : (m.map Prod.fst == ["/"]) = true
            · have hs2 : m.map Prod.fst = ["/"] := by
                exact eq_of_beq hs
              obtain ⟨v, hm⟩ : ∃ v, m = [("/", v)] := by
                cases m with
                | nil => simp at hs2
                | cons kv2 tl =>
                    cases tl with
                    | nil =>
                        obtain ⟨k2, v2⟩ := kv2
                        simp only [List.map_cons, List.map_nil] at hs2
                        injection hs2 with hk2 _
                        exact ⟨v2, by rw [hk2]⟩
                    | cons kv3 tl2 => simp at hs2
              subst hm
              simp only [List.getLast?_singleton, Option.some_inj] at hkv
              subst hkv
              have hv : ipldWF v = true := ipldWFEntries_mem hWFE (List.mem_singleton.mpr rfl)
              rw [fireShape_of_wf_none hv hd, Bool.false_and]
            · have : isSlashNext ((Ipld.map m) :: rest) = false := by
                simp only [isSlashNext]
                exact Bool.not_eq_true _ ▸ (by simpa using hs)
              rw [this, Bool.and_false]
          have hpot : pot (.map m) ++ rest = potEntries m ++ ((Ipld.map m) :: rest) := by
            simp [pot]
          rw [hpot, extract_chain_entries cfg m hIH _ stack hlast]
          have hconds : ∀ (d l1 l2 lk s : Bool), ((d && (l1 || l2 && lk)) && s) = false →
              ((d && l1) && s) = false ∧ (((d && l2) && s) && lk) = false := by decide
          have hfire2 : (((m.lookup "data").isSome
                && (m.length == 1 || (m.length == 2 && isLinkOpt (m.lookup "link"))))
                && isSlashNext rest) = false := by
            simpa only [fireShape] using hfire
          have hc := hconds ((m.lookup "data").isSome) (m.length == 1) (m.length == 2)
            (isLinkOpt (m.lookup "link")) (isSlashNext rest) hfire2
          have hstep : extractGo cfg ((Ipld.map m) :: rest)
                (((rewriteFEntries cfg m).map Prod.snd).reverse ++ stack) false
              = extractGo cfg rest (.map (rewriteFEntries cfg m) :: stack) false := by
            have hlen : m.length ≤ (((rewriteFEntries cfg m).map Prod.snd).reverse
                ++ stack).length := by
              simp [rewriteFEntries_length]
            have ht : ((((rewriteFEntries cfg m).map Prod.snd).reverse ++ stack).take m.length)
                = ((rewriteFEntries cfg m).map Prod.snd).reverse :=
              List.take_left' (by simp [rewriteFEntries_length])
            have hdr : ((((rewriteFEntries cfg m).map Prod.snd).reverse ++ stack).drop m.length)
                = stack :=
              List.drop_left' (by simp [rewriteFEntries_length])
            rcases hS : ((rewriteFEntries cfg m).map Prod.snd).reverse ++ stack
              with _ | ⟨top, stk⟩
            · have hpieces := List.append_eq_nil.mp hS
              have hm0 : m = [] := by
                have h3 : (rewriteFEntries cfg m).map Prod.snd = [] := by
                  simpa using hpieces.1
                have h4 : rewriteFEntries cfg m = [] := by
                  simpa using h3
                have h5 := rewriteFEntries_length cfg m
                rw [h4] at h5
                simpa using h5.symm
              have hst0 : stack = [] := hpieces.2
              subst hm0
              subst hst0
              rw [extractGo.eq_5, hc.1, hc.2]
              simp [rewriteFEntries]
            · rw [extractGo.eq_4, hc.1, hc.2]
              simp only [Bool.false_eq_true, if_false]
              rw [← hS, if_pos hlen, ht, hdr, List.reverse_reverse]
              rw [show m.map Prod.fst = (rewriteFEntries cfg m).map Prod.fst from
                (rewriteFEntries_keys cfg m).symm]
              rw [zip_fst_snd]
          rw [hstep, rewriteF_map_ord cfg m hd, pairsF_map_ord cfg m hd]

/-- Running the Extractor to exhaustion on a well-formed document yields the
delimiter pairs in post-order followed by the root pair: the rewritten root
under the CID computed from it with the default configuration. -/
theorem extract_run_eq (cfg : CidCfg) (n : Ipld) (hwf : ipldWF n = true) :
    extractRun cfg n
      = some (pairsF cfg n ++ [(cidNew cfg (rewriteF cfg n), rewriteF cfg n)]) := by
  rw [extractRun, postOrderSeq_eq_pot]
  have h := extract_decompN cfg (numNodes n) n le_rfl [] [] hwf
    (by rw [show isSlashNext [] = false from rfl, Bool.and_false])
  rw [List.append_nil] at h
  rw [h]
  rfl

mutual
/-- No subterm of the node is a recognised inline delimiter. -/
def noDelims : Ipld → Bool
  | .list xs => noDelimsList xs
  | .map m => !(delimParts (.map m)).isSome && noDelimsEntries m
  | _ => true

def noDelimsList : List Ipld → Bool
  | [] => true
  | x :: xs => noDelims x && noDelimsList xs

def noDelimsEntries : List (String × Ipld) → Bool
  | [] => true
  | (_, v) :: rest => noDelims v && noDelimsEntries rest
end

mutual
theorem noDelims_rewrite (cfg : CidCfg) :
    (n : Ipld) → noDelims n = true → rewriteF cfg n = n ∧ pairsF cfg n = []
  | .null, _ => ⟨rfl, rfl⟩
  | .bool b, _ => ⟨rfl, rfl⟩
  | .integer i, _ => ⟨rfl, rfl⟩
  | .float f, _ => ⟨rfl, rfl⟩
  | .bytes bs, _ => ⟨rfl, rfl⟩
  | .str s, _ => ⟨rfl, rfl⟩
  | .link c, _ => ⟨rfl, rfl⟩
  | .list xs, h => by
      rw [noDelims] at h
      have hl := noDelims_rewriteList cfg xs h
      rw [rewriteF_list_eq, pairsF_list_eq, hl.1, hl.2]
      exact ⟨rfl, rfl⟩
  | .map m, h => by
      rw [noDelims, Bool.and_eq_true] at h
      have hdp : delimParts (.map m) = none := by
        rcases hx : delimParts (.map m) with _ | pr
        · rfl
        · rw [hx] at h
          simp at h
      have hl := noDelims_rewriteEntries cfg m h.2
      rw [rewriteF_map_ord cfg m hdp, pairsF_map_ord cfg m hdp, hl.1, hl.2]
      exact ⟨rfl, rfl⟩

theorem noDelims_rewriteList (cfg : CidCfg) :
    (xs : List Ipld) → noDelimsList xs = true →
      rewriteFList cfg xs = xs ∧ pairsFList cfg xs = []
  | [], _ => ⟨rfl, rfl⟩
  | x :: rest, h => by
      rw [noDelimsList, Bool.and_eq_true] at h
      have h1 := noDelims_rewrite cfg x h.1
      have h2 := noDelims_rewriteList cfg rest h.2
      rw [rewriteFList, pairsFList, h1.1, h1.2, h2.1, h2.2]
      exact ⟨rfl, rfl⟩

theorem noDelims_rewriteEntries (cfg : CidCfg) :
    (m : List (String × Ipld)) → noDelimsEntries m = true →
      rewriteFEntries cfg m = m ∧ pairsFEntries cfg m = []
  | [], _ => ⟨rfl, rfl⟩
  | (k, v) :: rest, h => by
      rw [noDelimsEntries, Bool.and_eq_true] at h
      have h1 := noDelims_rewrite cfg v h.1
      have h2 := noDelims_rewriteEntries cfg rest h.2
      rw [rewriteFEntries, pairsFEntries, h1.1, h1.2, h2.1, h2.2]
      exact ⟨rfl, rfl⟩
end

/-- Concrete codec/digest configuration for witnesses: an injective-enough
structural encoder with the identity digest. -/
def wCfg : CidCfg :=
  { encode := fun x => [numNodes x], codecTag := 113, digest := id, version := 1 }

/-- C4.  For every well-formed node, the last (id, node) pair the Extractor
emits is the rewritten root (every recognised delimiter replaced by its
Link) under the id computed from it with the default codec, digest and CID
version. -/
theorem extractor_root_last (cfg : CidCfg) (n : Ipld) (hwf : ipldWF n = true) :
    ∃ ps, extractRun cfg n = some ps
      ∧ ps.getLast? = some (cidNew cfg (rewriteF cfg n), rewriteF cfg n) := by
  refine ⟨_, extract_run_eq cfg n hwf, ?_⟩
  rw [List.getLast?_concat]

theorem extractor_root_last_witness :
    ipldWF (.map [("a", .integer 1)]) = true
      ∧ ∃ ps, extractRun wCfg (.map [("a", .integer 1)]) = some ps
          ∧ ps.getLast? = some (cidNew wCfg (rewriteF wCfg (.map [("a", .integer 1)])),
              rewriteF wCfg (.map [("a", .integer 1)])) :=
  ⟨by rfl, extractor_root_last wCfg (.map [("a", .integer 1)]) (by rfl)⟩

/-- C8.  For every well-formed node containing no inline delimiter, the
Extractor's collected output is exactly the one-element list holding the
unchanged root under its computed id. -/
theorem extractor_identity_delimiter_free (cfg : CidCfg) (n : Ipld)
    (hwf : ipldWF n = true) (hnd : noDelims n = true) :
    extractRun cfg n = some [(cidNew cfg n, n)] := by
  have h := extract_run_eq cfg n hwf
  have h2 := noDelims_rewrite cfg n hnd
  rw [h2.1, h2.2] at h
  simpa using h

theorem extractor_identity_witness :
    (ipldWF (.list [.integer 7, .str "x"]) = true
        ∧ noDelims (.list [.integer 7, .str "x"]) = true)
      ∧ extractRun wCfg (.list [.integer 7, .str "x"])
          = some [(cidNew wCfg (.list [.integer 7, .str "x"]), .list [.integer 7, .str "x"])] :=
  ⟨⟨by rfl, by rfl⟩,
    extractor_identity_delimiter_free wCfg (.list [.integer 7, .str "x"]) (by rfl) (by rfl)⟩

/-- C10.  On every well-formed input the Extractor run completes without
hitting any of its partial operations: the stack pops, split_off calls and
the expect/panic branches never fail (a failure is modelled as none). -/
theorem extractor_never_panics (cfg : CidCfg) (n : Ipld) (hwf : ipldWF n = true) :
    (extractRun cfg n).isSome = true := by
  rw [extract_run_eq cfg n hwf]
  rfl

theorem extractor_never_panics_witness :
    ipldWF (.map [("/", .map [("data", .list [.integer 1])])]) = true
      ∧ (extractRun wCfg (.map [("/", .map [("data", .list [.integer 1])])])).isSome = true :=
  ⟨by rfl, extractor_never_panics wCfg (.map [("/", .map [("data", .list [.integer 1])])]) (by rfl)⟩

theorem postOrder_claim_witness :
    ipldWF (.map [("a", .integer 1), ("b", .list [.null, .str "s"])]) = true
      ∧ (postOrderSeq (.map [("a", .integer 1), ("b", .list [.null, .str "s"])])
          = ((childrenOf (.map [("a", .integer 1), ("b", .list [.null, .str "s"])])).map
              postOrderSeq).flatten ++ [.map [("a", .integer 1), ("b", .list [.null, .str "s"])]]
        ∧ (postOrderSeq (.map [("a", .integer 1), ("b", .list [.null, .str "s"])])).length
            = numNodes (.map [("a", .integer 1), ("b", .list [.null, .str "s"])])
        ∧ (∀ m, (.map [("a", .integer 1), ("b", .list [.null, .str "s"])] : Ipld) = .map m →
            List.Pairwise (fun a b => a.1 < b.1) m)) :=
  ⟨by rfl, postOrder_yields_descendants_first _ (by rfl)⟩

/-- The inline wrapper the inliner builds for a fetched block: two BTreeMap
inserts ("link" then "data") iterate in ascending key order, so the inner
map is [data, link]; the outer map holds it under "/". -/
def wrapperFor (c : Cid) (v : Ipld) : Ipld :=
  .map [("/", .map [("data", v), ("link", .link c)])]

/-- Store::put_keyed on the function model of a store: later inserts win,
as with BTreeMap::insert. -/
def storePut (store : Cid → Option Ipld) (c : Cid) (v : Ipld) : Cid → Option Ipld :=
  fun c2 => if c2 = c then some v else store c2

/-- The empty store. -/
def storeEmpty : Cid → Option Ipld := fun _ => none

/-- Store contents after put_keyed of each pair in order (Store::extract's
loop body). -/
def storeOf (ps : List (Cid × Ipld)) : Cid → Option Ipld :=
  ps.foldl (fun s p => storePut s p.1 p.2) storeEmpty

/-- Outcome of driving an inliner iterator to completion:
done x  -- the walk was exhausted and the final stack pop produced x;
stuck needs rest stack -- a store miss surfaced with the given resume state;
panicked -- a split_off past the stack base (Rust panics). -/
inductive InlOut where
  | done (x : Option Ipld)
  | stuck (needs : Cid) (rest : List Ipld) (stack : List Ipld)
  | panicked

/-- Quiet::next (src/src/inliner/quiet.rs), identical to Naive::next
(src/inline_ipld/src/inliner/naive.rs), run over the post-order token
sequence: a Link found in the store is replaced by its wrapper; a Link
missing from the store is surfaced immediately as Err(cid) with the
traversal position and rebuild stack retained (modelled by stuck); Map and
List rebuild from the stack; all other nodes are pushed. -/
def quietGo (store : Cid → Option Ipld) : List Ipld → List Ipld → InlOut
  | [], stack => .done stack.head?
  | .link c :: rest, stack =>
      match store c with
      | some v => quietGo store rest (wrapperFor c v :: stack)
      | none => .stuck c rest stack
  | .map m :: rest, stack =>
      if m.length ≤ stack.length then
        quietGo store rest
          (.map ((m.map Prod.fst).zip ((stack.take m.length).reverse)) :: stack.drop m.length)
      else .panicked
  | .list xs :: rest, stack =>
      if xs.length ≤ stack.length then
        quietGo store rest (.list ((stack.take xs.length).reverse) :: stack.drop xs.length)
      else .panicked
  | x :: rest, stack => quietGo store rest (x :: stack)

/-- A full ExactlyOnce / AtLeastOnce style run from a fresh inliner. -/
def quietRun (store : Cid → Option Ipld) (n : Ipld) : InlOut :=
  quietGo store (postOrderSeq n) []

/-- Stuck::resolve (src/src/inliner/exactly_once.rs): put_keyed the missing
block into the store, push the wrapper onto the rebuild stack (stub), clear
stuck_at and resume the run.  Returns the updated store with the outcome. -/
def resolveRun (store : Cid → Option Ipld) (needs : Cid) (v : Ipld)
    (rest stack : List Ipld) : (Cid → Option Ipld) × InlOut :=
  (storePut store needs v,
    quietGo (storePut store needs v) rest (wrapperFor needs v :: stack))

/-- Stuck::ignore: push Link(needs) onto the rebuild stack and resume. -/
def ignoreRun (store : Cid → Option Ipld) (needs : Cid)
    (rest stack : List Ipld) : InlOut :=
  quietGo store rest (.link needs :: stack)

/-- AtMostOnce::next layered over ExactlyOnce (src/src/inliner/at_most_once.rs),
flattened over a full run: on a store miss the layer checks its seen set; if
the id was seen it interjects Link(id) and iteration continues, otherwise
the iterator returns None with the inner inliner stuck.  The seen set is
never written to by any code path, so it is a constant parameter. -/
def amoGo (store : Cid → Option Ipld) (seen : List Cid) :
    List Ipld → List Ipld → InlOut
  | [], stack => .done stack.head?
  | .link c :: rest, stack =>
      match store c with
      | some v => amoGo store seen rest (wrapperFor c v :: stack)
      | none =>
          if seen.contains c then amoGo store seen rest (.link c :: stack)
          else .stuck c rest stack
  | .map m :: rest, stack =>
      if m.length ≤ stack.length then
        amoGo store seen rest
          (.map ((m.map Prod.fst).zip ((stack.take m.length).reverse)) :: stack.drop m.length)
      else .panicked
  | .list xs :: rest, stack =>
      if xs.length ≤ stack.length then
        amoGo store seen rest (.list ((stack.take xs.length).reverse) :: stack.drop xs.length)
      else .panicked
  | x :: rest, stack => amoGo store seen rest (x :: stack)

/-- A full AtMostOnce run from a fresh inliner (seen starts empty and is
never filled). -/
def amoRun (store : Cid → Option Ipld) (n : Ipld) : InlOut :=
  amoGo store [] (postOrderSeq n) []

/-- A run can only get stuck on an id the store does not hold. -/
theorem quiet_stuck_store_none (store : Cid → Option Ipld) :
    ∀ (toks stack : List Ipld) {c : Cid} {rest stk : List Ipld},
      quietGo store toks stack = .stuck c rest stk → store c = none := by
  intro toks
  induction toks with
  | nil =>
      intro stack c rest stk h
      simp [quietGo] at h
  | cons x rest' IH =>
      intro stack c rest stk h
      cases x with
      | link c2 =>
          cases hc2 : store c2 with
          | some v2 =>
              rw [show quietGo store (.link c2 :: rest') stack
                  = quietGo store rest' (wrapperFor c2 v2 :: stack) from by
                rw [quietGo, hc2]] at h
              exact IH _ h
          | none =>
              rw [show quietGo store (.link c2 :: rest') stack
                  = .stuck c2 rest' stack from by rw [quietGo, hc2]] at h
              injection h with h1 h2 h3
              subst h1
              exact hc2
      | map m =>
          by_cases hlen : m.length ≤ stack.length
          · rw [show quietGo store (.map m :: rest') stack
                = quietGo store rest'
                    (.map ((m.map Prod.fst).zip ((stack.take m.length).reverse))
                      :: stack.drop m.length) from by rw [quietGo, if_pos hlen]] at h
            exact IH _ h
          · rw [show quietGo store (.map m :: rest') stack = .panicked from by
              rw [quietGo, if_neg hlen]] at h
            simp at h
      | list xs =>
          by_cases hlen : xs.length ≤ stack.length
          · rw [show quietGo store (.list xs :: rest') stack
                = quietGo store rest'
                    (.list ((stack.take xs.length).reverse) :: stack.drop xs.length) from by
              rw [quietGo, if_pos hlen]] at h
            exact IH _ h
          · rw [show quietGo store (.list xs :: rest') stack = .panicked from by
              rw [quietGo, if_neg hlen]] at h
            simp at h
      | null =>
          rw [show quietGo store (.null :: rest') stack
              = quietGo store rest' (.null :: stack) from rfl] at h
          exact IH _ h
      | bool b =>
          rw [show quietGo store (.bool b :: rest') stack
              = quietGo store rest' (.bool b :: stack) from rfl] at h
          exact IH _ h
      | integer i =>
          rw [show quietGo store (.integer i :: rest') stack
              = quietGo store rest' (.integer i :: stack) from rfl] at h
          exact IH _ h
      | float f =>
          rw [show quietGo store (.float f :: rest') stack
              = quietGo store rest' (.float f :: stack) from rfl] at h
          exact IH _ h
      | bytes bs =>
          rw [show quietGo store (.bytes bs :: rest') stack
              = quietGo store rest' (.bytes bs :: stack) from rfl] at h
          exact IH _ h
      | str s =>
          rw [show quietGo store (.str s :: rest') stack
              = quietGo store rest' (.str s :: stack) from rfl] at h
          exact IH _ h

/-- Resuming a stuck run after Stuck::resolve continues exactly as a run in
which the resolved block had been in the store from the start. -/
theorem quiet_resolve_resume (store : Cid → Option Ipld) :
    ∀ (toks stack : List Ipld) {c : Cid} {rest stk : List Ipld} (v : Ipld),
      quietGo store toks stack = .stuck c rest stk →
      quietGo (storePut store c v) rest (wrapperFor c v :: stk)
        = quietGo (storePut store c v) toks stack := by
  intro toks
  induction toks with
  | nil =>
      intro stack c rest stk v h
      simp [quietGo] at h
  | cons x rest' IH =>
      intro stack c rest stk v h
      cases x with
      | link c2 =>
          cases hc2 : store c2 with
          | some v2 =>
              rw [show quietGo store (.link c2 :: rest') stack
                  = quietGo store rest' (wrapperFor c2 v2 :: stack) from by
                rw [quietGo, hc2]] at h
              have hcc : c2 ≠ c := by
                intro he
                subst he
                rw [quiet_stuck_store_none store _ _ h] at hc2
                exact Option.noConfusion hc2
              rw [show quietGo (storePut store c v) (.link c2 :: rest') stack
                  = quietGo (storePut store c v) rest' (wrapperFor c2 v2 :: stack) from by
                rw [quietGo, show storePut store c v c2 = some v2 from by
                  simp [storePut, hcc, hc2]]]
              exact IH _ v h
          | none =>
              rw [show quietGo store (.link c2 :: rest') stack
                  = .stuck c2 rest' stack from by rw [quietGo, hc2]] at h
              injection h with h1 h2 h3
              subst h2
              subst h3
              cases h1
              rw [show quietGo (storePut store c v) (.link c :: rest') stack
                  = quietGo (storePut store c v) rest' (wrapperFor c v :: stack) from by
                rw [quietGo, show storePut store c v c = some v from by simp [storePut]]]
      | map m =>
          by_cases hlen : m.length ≤ stack.length
          · rw [show quietGo store (.map m :: rest') stack
                = quietGo store rest'
                    (.map ((m.map Prod.fst).zip ((stack.take m.length).reverse))
                      :: stack.drop m.length) from by rw [quietGo, if_pos hlen]] at h
            rw [show quietGo (storePut store c v) (.map m :: rest') stack
                = quietGo (storePut store c v) rest'
                    (.map ((m.map Prod.fst).zip ((stack.take m.length).reverse))
                      :: stack.drop m.length) from by rw [quietGo, if_pos hlen]]
            exact IH _ v h
          · rw [show quietGo store (.map m :: rest') stack = .panicked from by
              rw [quietGo, if_neg hlen]] at h
            simp at h
      | list xs =>
          by_cases hlen : xs.length ≤ stack.length
          · rw [show quietGo store (.list xs :: rest') stack
                = quietGo store rest'
                    (.list ((stack.take xs.length).reverse) :: stack.drop xs.length) from by
              rw [quietGo, if_pos hlen]] at h
            rw [show quietGo (storePut store c v) (.list xs :: rest') stack
                = quietGo (storePut store c v) rest'
                    (.list ((stack.take xs.length).reverse) :: stack.drop xs.length) from by
              rw [quietGo, if_pos hlen]]
            exact IH _ v h
          · rw [show quietGo store (.list xs :: rest') stack = .panicked from by
              rw [quietGo, if_neg hlen]] at h
            simp at h
      | null =>
          rw [show quietGo store (.null :: rest') stack
              = quietGo store rest' (.null :: stack) from rfl] at h
          rw [show quietGo (storePut store c v) (.null :: rest') stack
              = quietGo (storePut store c v) rest' (.null :: stack) from rfl]
          exact IH _ v h
      | bool b =>
          rw [show quietGo store (.bool b :: rest') stack
              = quietGo store rest' (.bool b :: stack) from rfl] at h
          rw [show quietGo (storePut store c v) (.bool b :: rest') stack
              = quietGo (storePut store c v) rest' (.bool b :: stack) from rfl]
          exact IH _ v h
      | integer i =>
          rw [show quietGo store (.integer i :: rest') stack
              = quietGo store rest' (.integer i :: stack) from rfl] at h
          rw [show quietGo (storePut store c v) (.integer i :: rest') stack
              = quietGo (storePut store c v) rest' (.integer i :: stack) from rfl]
          exact IH _ v h
      | float f =>
          rw [show quietGo store (.float f :: rest') stack
              = quietGo store rest' (.float f :: stack) from rfl] at h
          rw [show quietGo (storePut store c v) (.float f :: rest') stack
              = quietGo (storePut store c v) rest' (.float f :: stack) from rfl]
          exact IH _ v h
      | bytes bs =>
          rw [show quietGo store (.bytes bs :: rest') stack
              = quietGo store rest' (.bytes bs :: stack) from rfl] at h
          rw [show quietGo (storePut store c v) (.bytes bs :: rest') stack
              = quietGo (storePut store c v) rest' (.bytes bs :: stack) from rfl]
          exact IH _ v h
      | str s =>
          rw [show quietGo store (.str s :: rest') stack
              = quietGo store rest' (.str s :: stack) from rfl] at h
          rw [show quietGo (storePut store c v) (.str s :: rest') stack
              = quietGo (storePut store c v) rest' (.str s :: stack) from rfl]
          exact IH _ v h

/-- The concrete Cid X of scenario E5. -/
def e5X : Cid := { version := 1, codecTag := 113, hash := [9, 9] }

/-- The E5 input document: a map with "a" mapped to 1 and "b" a link to X. -/
def e5doc : Ipld := .map [("a", .integer 1), ("b", .link e5X)]

/-- C2.  Stuck::resolve writes (needs, node) into the store -- get(needs)
afterwards returns node -- and splices the wrapper onto the rebuild stack,
so the resumed run equals a run in which the block had been in the store
from the start; instantiated on scenario E5: from the empty store, inlining
a map holding Link(X) gets stuck at X, and resolving with [1,2,3] resumes
to the fully inlined document while the store now holds X. -/
theorem stuck_resolve_resumes :
    (∀ (store : Cid → Option Ipld) (toks stack : List Ipld) (c : Cid)
        (rest stk : List Ipld) (v : Ipld),
      quietGo store toks stack = .stuck c rest stk →
        (resolveRun store c v rest stk).2 = quietGo (storePut store c v) toks stack
          ∧ (resolveRun store c v rest stk).1 c = some v)
    ∧ quietRun storeEmpty e5doc = .stuck e5X [e5doc] [.integer 1]
    ∧ (resolveRun storeEmpty e5X (.list [.integer 1, .integer 2, .integer 3])
          [e5doc] [.integer 1]).2
        = .done (some (.map [("a", .integer 1),
            ("b", wrapperFor e5X (.list [.integer 1, .integer 2, .integer 3]))]))
    ∧ (resolveRun storeEmpty e5X (.list [.integer 1, .integer 2, .integer 3])
          [e5doc] [.integer 1]).1 e5X
        = some (.list [.integer 1, .integer 2, .integer 3]) := by
  refine ⟨?_, ?_, ?_, ?_⟩
  · intro store toks stack c rest stk v h
    exact ⟨quiet_resolve_resume store toks stack v h, by simp [resolveRun, storePut]⟩
  · rw [quietRun, postOrderSeq_eq_pot]
    rfl
  · rfl
  · rfl

theorem stuck_resolve_resumes_witness :
    quietGo storeEmpty (pot e5doc) [] = .stuck e5X [e5doc] [.integer 1]
      ∧ ((resolveRun storeEmpty e5X (.list [.integer 1, .integer 2, .integer 3])
            [e5doc] [.integer 1]).2
          = quietGo (storePut storeEmpty e5X (.list [.integer 1, .integer 2, .integer 3]))
              (pot e5doc) []
        ∧ (resolveRun storeEmpty e5X (.list [.integer 1, .integer 2, .integer 3])
            [e5doc] [.integer 1]).1 e5X
          = some (.list [.integer 1, .integer 2, .integer 3])) :=
  ⟨by rfl,
    stuck_resolve_resumes.1 storeEmpty (pot e5doc) [] e5X [e5doc] [.integer 1]
      (.list [.integer 1, .integer 2, .integer 3]) (by rfl)⟩

/-- C7 (code bug evidence).  On the naive policy (Naive::next, identical to
Quiet::next), a store miss is not silently ignored: the first next() call
surfaces Err(X) without leaving Link(X) on the rebuild stack, and a caller
that keeps iterating (as Naive's own run/last/collect does) hits the map
rebuild with an empty stack, i.e. a split_off past the base: a panic. -/
theorem naive_miss_surfaces_then_panics :
    quietRun storeEmpty (.map [("b", .link e5X)])
        = .stuck e5X [.map [("b", .link e5X)]] []
      ∧ quietGo storeEmpty [.map [("b", .link e5X)]] [] = .panicked := by
  constructor
  · rw [quietRun, postOrderSeq_eq_pot]
    rfl
  · rfl

/-- The C6/C9 store: it holds X mapped to the integer 1. -/
def c6store : Cid → Option Ipld := storePut storeEmpty e5X (.integer 1)

/-- C6 (code bug evidence).  AtMostOnce consults the store before its seen
set, never inserts into seen, and therefore re-expands every repeated id
that the store can serve: on [Link X, Link X] with X in the store both
occurrences are wrapped; even when X is already in the seen set the store
is still consulted first and the link is expanded again. -/
theorem at_most_once_reexpands_repeats :
    amoRun c6store (.list [.link e5X, .link e5X])
        = .done (some (.list [wrapperFor e5X (.integer 1), wrapperFor e5X (.integer 1)]))
      ∧ amoGo c6store [e5X] (pot (.list [.link e5X, .link e5X])) []
        = .done (some (.list [wrapperFor e5X (.integer 1), wrapperFor e5X (.integer 1)])) := by
  constructor
  · rw [amoRun, postOrderSeq_eq_pot]
    rfl
  · rfl

/-- Size of the document delivered by a done outcome (0 otherwise); used to
separate distinct outcomes without decidable equality on documents. -/
def doneSize : InlOut → Nat
  | .done (some x) => numNodes x
  | _ => 0

/-- C9 counterexample.  An already-inlined document contains its wrapper
links literally; with its blocks in the store, a second at-most-once run
re-expands the Link under "link" inside the wrapper, so the run does not
return the document unchanged. -/
theorem at_most_once_not_idempotent :
    ¬ (amoRun c6store (.map [("b", wrapperFor e5X (.integer 1))])
        = .done (some (.map [("b", wrapperFor e5X (.integer 1))]))) := by
  intro h
  have h2 := congrArg doneSize h
  rw [amoRun, postOrderSeq_eq_pot] at h2
  exact absurd h2 (by decide)

mutual
/-- No Link leaf anywhere in the document. -/
def linkFree : Ipld → Bool
  | .link _ => false
  | .list xs => linkFreeList xs
  | .map m => linkFreeEntries m
  | _ => true

def linkFreeList : List Ipld → Bool
  | [] => true
  | x :: xs => linkFree x && linkFreeList xs

def linkFreeEntries : List (String × Ipld) → Bool
  | [] => true
  | (_, v) :: rest => linkFree v && linkFreeEntries rest
end

mutual
/-- A link-free subtree passes through the at-most-once inliner as a pure
rebuild: its post-order tokens leave exactly the subtree on the stack. -/
theorem amo_linkfree (store : Cid → Option Ipld) (seen : List Cid) :
    (n : Ipld) → linkFree n = true → ∀ (rest stack : List Ipld),
      amoGo store seen (pot n ++ rest) stack = amoGo store seen rest (n :: stack)
  | .null, _, rest, stack => rfl
  | .bool b, _, rest, stack => rfl
  | .integer i, _, rest, stack => rfl
  | .float f, _, rest, stack => rfl
  | .bytes bs, _, rest, stack => rfl
  | .str s, _, rest, stack => rfl
  | .list xs, h, rest, stack => by
      rw [pot, List.append_assoc, List.singleton_append,
        amo_linkfreeList store seen xs (by simpa [linkFree] using h)]
      rw [amoGo, if_pos (by simp)]
      rw [List.take_left' (by simp), List.drop_left' (by simp), List.reverse_reverse]
  | .map m, h, rest, stack => by
      rw [pot, List.append_assoc, List.singleton_append,
        amo_linkfreeEntries store seen m (by simpa [linkFree] using h)]
      rw [amoGo, if_pos (by simp)]
      rw [List.take_left' (by simp), List.drop_left' (by simp), List.reverse_reverse,
        zip_fst_snd]

theorem amo_linkfreeList (store : Cid → Option Ipld) (seen : List Cid) :
    (xs : List Ipld) → linkFreeList xs = true → ∀ (rest stack : List Ipld),
      amoGo store seen (potList xs ++ rest) stack
        = amoGo store seen rest (xs.reverse ++ stack)
  | [], _, rest, stack => by simp [potList]
  | x :: xs', h, rest, stack => by
      rw [linkFreeList, Bool.and_eq_true] at h
      rw [potList, List.append_assoc, amo_linkfree store seen x h.1,
        amo_linkfreeList store seen xs' h.2]
      simp

theorem amo_linkfreeEntries (store : Cid → Option Ipld) (seen : List Cid) :
    (m : List (String × Ipld)) → linkFreeEntries m = true → ∀ (rest stack : List Ipld),
      amoGo store seen (potEntries m ++ rest) stack
        = amoGo store seen rest ((m.map Prod.snd).reverse ++ stack)
  | [], _, rest, stack => by simp [potEntries]
  | (k, v) :: m', h, rest, stack => by
      rw [linkFreeEntries, Bool.and_eq_true] at h
      rw [potEntries, List.append_assoc, amo_linkfree store seen v h.1,
        amo_linkfreeEntries store seen m' h.2]
      simp
end

/-- C9 amended.  For every document with no Link leaves, the at-most-once
inliner returns it unchanged, so a second run on the result equals the
first; documents carrying Link leaves (every wrapper does) are re-expanded,
see the counterexample. -/
theorem at_most_once_identity_linkfree (store : Cid → Option Ipld) (d : Ipld)
    (h : linkFree d = true) :
    amoRun store d = .done (some d) := by
  rw [amoRun, postOrderSeq_eq_pot]
  have h2 := amo_linkfree store [] d h [] []
  rw [List.append_nil] at h2
  rw [h2]
  rfl

theorem at_most_once_identity_witness :
    linkFree (.map [("b", .integer 3)]) = true
      ∧ amoRun c6store (.map [("b", .integer 3)]) = .done (some (.map [("b", .integer 3)])) :=
  ⟨by rfl, at_most_once_identity_linkfree c6store (.map [("b", .integer 3)]) (by rfl)⟩

mutual
/-- Plain data: no Link leaves and no single-key "/" maps anywhere.  The
data payload of a delimiter is plain in the restricted round-trip class. -/
def plainDoc : Ipld → Bool
  | .link _ => false
  | .list xs => plainDocList xs
  | .map m => !(m.map Prod.fst == ["/"]) && plainDocEntries m
  | _ => true

def plainDocList : List Ipld → Bool
  | [] => true
  | x :: xs => plainDoc x && plainDocList xs

def plainDocEntries : List (String × Ipld) → Bool
  | [] => true
  | (_, v) :: rest => plainDoc v && plainDocEntries rest
end

mutual
/-- The restricted document class for the round trip: no Link leaves
outside delimiters, every single-key "/" map is a recognised delimiter, and
every delimiter's data payload is plain. -/
def okDoc : Ipld → Bool
  | .link _ => false
  | .list xs => okDocList xs
  | .map m =>
      match delimParts (.map m) with
      | some (dv, _) => plainDoc dv
      | none => !(m.map Prod.fst == ["/"]) && okDocEntries m
  | _ => true

def okDocList : List Ipld → Bool
  | [] => true
  | x :: xs => okDoc x && okDocList xs

def okDocEntries : List (String × Ipld) → Bool
  | [] => true
  | (_, v) :: rest => okDoc v && okDocEntries rest
end

mutual
/-- The document produced by one full inliner pass when every link hits the
store: each Link is replaced (non-recursively) by the wrapper holding the
fetched block; composites are rebuilt; a missing link is left in place
(that branch is unreachable under allHits). -/
def inlF (store : Cid → Option Ipld) : Ipld → Ipld
  | .link c =>
      match store c with
      | some v => wrapperFor c v
      | none => .link c
  | .list xs => .list (inlFList store xs)
  | .map m => .map (inlFEntries store m)
  | x => x

def inlFList (store : Cid → Option Ipld) : List Ipld → List Ipld
  | [] => []
  | x :: xs => inlF store x :: inlFList store xs

def inlFEntries (store : Cid → Option Ipld) : List (String × Ipld) → List (String × Ipld)
  | [] => []
  | (k, v) :: rest => (k, inlF store v) :: inlFEntries store rest
end

mutual
/-- Every Link leaf of the document is present in the store. -/
def allHits (store : Cid → Option Ipld) : Ipld → Bool
  | .link c => (store c).isSome
  | .list xs => allHitsList store xs
  | .map m => allHitsEntries store m
  | _ => true

def allHitsList (store : Cid → Option Ipld) : List Ipld → Bool
  | [] => true
  | x :: xs => allHits store x && allHitsList store xs

def allHitsEntries (store : Cid → Option Ipld) : List (String × Ipld) → Bool
  | [] => true
  | (_, v) :: rest => allHits store v && allHitsEntries store rest
end

mutual
/-- A structural tag-length-value encoding of documents into naturals,
serving as a concrete injective-enough codec for counterexamples. -/
def flatEnc : Ipld → List Nat
  | .null => [0]
  | .bool b => [1, cond b 1 0]
  | .integer i => [2, if i < 0 then 1 else 0, i.natAbs]
  | .float f => [3, f]
  | .bytes bs => 4 :: bs.length :: bs
  | .str s => 5 :: s.length :: s.data.map Char.toNat
  | .list xs => 6 :: xs.length :: flatEncList xs
  | .map m => 7 :: m.length :: flatEncEntries m
  | .link c => 8 :: c.version :: c.codecTag :: c.hash.length :: c.hash

def flatEncList : List Ipld → List Nat
  | [] => []
  | x :: xs => (flatEnc x).length :: (flatEnc x ++ flatEncList xs)

def flatEncEntries : List (String × Ipld) → List Nat
  | [] => []
  | (k, v) :: rest =>
      k.length :: (k.data.map Char.toNat ++ ((flatEnc v).length :: (flatEnc v ++ flatEncEntries rest)))
end

/-- The concrete configuration used for counterexamples: the structural
encoder under the identity digest, DAG-CBOR's tag, CIDv1. -/
def flatCfg : CidCfg :=
  { encode := flatEnc, codecTag := 113, digest := id, version := 1 }

theorem delimParts_none_of_keys {m : List (String × Ipld)}
    (h : (m.map Prod.fst == ["/"]) = false) : delimParts (.map m) = none := by
  unfold delimParts
  split
  · rename_i heq
    injection heq with heq2
    subst heq2
    simp at h
  · rename_i heq
    injection heq with heq2
    subst heq2
    simp at h
  · rfl

mutual
theorem plain_noDelims : (n : Ipld) → plainDoc n = true → noDelims n = true
  | .null, _ => rfl
  | .bool _, _ => rfl
  | .integer _, _ => rfl
  | .float _, _ => rfl
  | .bytes _, _ => rfl
  | .str _, _ => rfl
  | .list xs, h => by
      rw [noDelims]
      exact plain_noDelimsList xs (by simpa [plainDoc] using h)
  | .map m, h => by
      rw [plainDoc, Bool.and_eq_true] at h
      have hk : (m.map Prod.fst == ["/"]) = false := by
        rcases hb : (m.map Prod.fst == ["/"]) with _ | _
        · rfl
        · rw [hb] at h
          simp at h
      rw [noDelims, delimParts_none_of_keys hk]
      simpa using plain_noDelimsEntries m h.2

theorem plain_noDelimsList : (xs : List Ipld) → plainDocList xs = true → noDelimsList xs = true
  | [], _ => rfl
  | x :: rest, h => by
      rw [plainDocList, Bool.and_eq_true] at h
      rw [noDelimsList, plain_noDelims x h.1, plain_noDelimsList rest h.2]
      rfl

theorem plain_noDelimsEntries :
    (m : List (String × Ipld)) → plainDocEntries m = true → noDelimsEntries m = true
  | [], _ => rfl
  | (k, v) :: rest, h => by
      rw [plainDocEntries, Bool.and_eq_true] at h
      rw [noDelimsEntries, plain_noDelims v h.1, plain_noDelimsEntries rest h.2]
      rfl
end

theorem inlFEntries_keys (store : Cid → Option Ipld) (m : List (String × Ipld)) :
    (inlFEntries store m).map Prod.fst = m.map Prod.fst := by
  induction m with
  | nil => rfl
  | cons kv rest ih => cases kv; simp [inlFEntries, ih]

theorem keysSorted_keys_only :
    (m1 m2 : List (String × Ipld)) → m1.map Prod.fst = m2.map Prod.fst →
      keysSorted m1 = keysSorted m2
  | [], [], _ => rfl
  | [], kv :: r, h => by simp at h
  | kv :: r, [], h => by simp at h
  | [kv1], [kv2], _ => rfl
  | [kv1], kv2 :: kv3 :: r2, h => by simp at h
  | kv1 :: kv2 :: r1, [kv3], h => by simp at h
  | (k1, v1) :: (k2, v2) :: r1, (k3, v3) :: (k4, v4) :: r2, h => by
      simp only [List.map_cons, List.cons.injEq] at h
      obtain ⟨h1, h2, h3⟩ := h
      subst h1
      rw [keysSorted, keysSorted,
        keysSorted_keys_only ((k2, v2) :: r1) ((k4, v4) :: r2)
          (by simp only [List.map_cons, List.cons.injEq]; exact ⟨h2, h3⟩), h2]

theorem foldl_storePut_not_mem {c : Cid} :
    ∀ (ps : List (Cid × Ipld)) (s0 : Cid → Option Ipld), c ∉ ps.map Prod.fst →
      (ps.foldl (fun s p => storePut s p.1 p.2) s0) c = s0 c
  | [], s0, _ => rfl
  | p :: ps', s0, h => by
      rw [List.map_cons] at h
      have h1 : c ≠ p.1 := fun he => h (by rw [he]; exact List.mem_cons_self _ _)
      have h2 : c ∉ ps'.map Prod.fst := fun hm => h (List.mem_cons_of_mem _ hm)
      rw [List.foldl_cons, foldl_storePut_not_mem ps' _ h2]
      simp [storePut, h1]

theorem foldl_storePut_lookup {c : Cid} {v : Ipld} :
    ∀ (ps : List (Cid × Ipld)) (s0 : Cid → Option Ipld),
      (ps.map Prod.fst).Nodup → (c, v) ∈ ps →
      (ps.foldl (fun s p => storePut s p.1 p.2) s0) c = some v
  | [], _, _, hm => absurd hm (List.not_mem_nil _)
  | p :: ps', s0, hnd, hm => by
      rw [List.map_cons, List.nodup_cons] at hnd
      rcases List.mem_cons.mp hm with h1 | h2
      · subst h1
        rw [List.foldl_cons, foldl_storePut_not_mem ps' _ hnd.1]
        simp [storePut]
      · rw [List.foldl_cons]
        exact foldl_storePut_lookup ps' _ hnd.2 h2

theorem foldl_storePut_mem {c : Cid} {v : Ipld} :
    ∀ (ps : List (Cid × Ipld)) (s0 : Cid → Option Ipld),
      (ps.foldl (fun s p => storePut s p.1 p.2) s0) c = some v →
      (c, v) ∈ ps ∨ s0 c = some v
  | [], _, h => Or.inr h
  | p :: ps', s0, h => by
      rw [List.foldl_cons] at h
      rcases foldl_storePut_mem ps' _ h with h1 | h2
      · exact Or.inl (List.mem_cons_of_mem _ h1)
      · rw [storePut] at h2
        by_cases he : c = p.1
        · rw [if_pos he] at h2
          injection h2 with h3
          subst he
          subst h3
          exact Or.inl (List.mem_cons_self _ _)
        · rw [if_neg he] at h2
          exact Or.inr h2

theorem storeOf_lookup {ps : List (Cid × Ipld)} {c : Cid} {v : Ipld}
    (hnd : (ps.map Prod.fst).Nodup) (hm : (c, v) ∈ ps) : storeOf ps c = some v :=
  foldl_storePut_lookup ps storeEmpty hnd hm

theorem storeOf_mem {ps : List (Cid × Ipld)} {c : Cid} {v : Ipld}
    (h : storeOf ps c = some v) : (c, v) ∈ ps := by
  rcases foldl_storePut_mem ps storeEmpty h with h1 | h2
  · exact h1
  · exact absurd h2 (by simp [storeEmpty])

theorem inlFList_length (store : Cid → Option Ipld) (xs : List Ipld) :
    (inlFList store xs).length = xs.length := by
  induction xs with
  | nil => rfl
  | cons x rest ih => simp [inlFList, ih]

theorem inlFEntries_length (store : Cid → Option Ipld) (m : List (String × Ipld)) :
    (inlFEntries store m).length = m.length := by
  induction m with
  | nil => rfl
  | cons kv rest ih => cases kv; simp [inlFEntries, ih]

mutual
/-- When every link of a subtree hits the store, the quiet (naive /
at-least-once) kernel rebuilds exactly inlF of it onto the stack. -/
theorem quiet_inl (store : Cid → Option Ipld) :
    (n : Ipld) → allHits store n = true → ∀ (rest stack : List Ipld),
      quietGo store (pot n ++ rest) stack = quietGo store rest (inlF store n :: stack)
  | .null, _, rest, stack => rfl
  | .bool b, _, rest, stack => rfl
  | .integer i, _, rest, stack => rfl
  | .float f, _, rest, stack => rfl
  | .bytes bs, _, rest, stack => rfl
  | .str s, _, rest, stack => rfl
  | .link c, h, rest, stack => by
      rw [allHits] at h
      rcases hx : store c with _ | v
      · rw [hx] at h
        simp at h
      · rw [show pot (.link c) = [.link c] from rfl, List.singleton_append]
        rw [show quietGo store (.link c :: rest) stack
            = quietGo store rest (wrapperFor c v :: stack) from by rw [quietGo, hx]]
        rw [show inlF store (.link c) = wrapperFor c v from by rw [inlF, hx]]
  | .list xs, h, rest, stack => by
      rw [pot, List.append_assoc, List.singleton_append,
        quiet_inlList store xs (by simpa [allHits] using h)]
      rw [quietGo, if_pos (by simp [inlFList_length])]
      rw [List.take_left' (by simp [inlFList_length]),
        List.drop_left' (by simp [inlFList_length]), List.reverse_reverse]
      rw [show inlF store (.list xs) = .list (inlFList store xs) from rfl]
  | .map m, h, rest, stack => by
      rw [pot, List.append_assoc, List.singleton_append,
        quiet_inlEntries store m (by simpa [allHits] using h)]
      rw [quietGo, if_pos (by simp [inlFEntries_length])]
      rw [List.take_left' (by simp [inlFEntries_length]),
        List.drop_left' (by simp [inlFEntries_length]), List.reverse_reverse]
      rw [show m.map Prod.fst = (inlFEntries store m).map Prod.fst from
        (inlFEntries_keys store m).symm, zip_fst_snd]
      rw [show inlF store (.map m) = .map (inlFEntries store m) from rfl]

theorem quiet_inlList (store : Cid → Option Ipld) :
    (xs : List Ipld) → allHitsList store xs = true → ∀ (rest stack : List Ipld),
      quietGo store (potList xs ++ rest) stack
        = quietGo store rest ((inlFList store xs).reverse ++ stack)
  | [], _, rest, stack => by simp [potList, inlFList]
  | x :: xs', h, rest, stack => by
      rw [allHitsList, Bool.and_eq_true] at h
      rw [potList, List.append_assoc, quiet_inl store x h.1,
        quiet_inlList store xs' h.2]
      simp [inlFList]

theorem quiet_inlEntries (store : Cid → Option Ipld) :
    (m : List (String × Ipld)) → allHitsEntries store m = true → ∀ (rest stack : List Ipld),
      quietGo store (potEntries m ++ rest) stack
        = quietGo store rest (((inlFEntries store m).map Prod.snd).reverse ++ stack)
  | [], _, rest, stack => by simp [potEntries, inlFEntries]
  | (k, v) :: m', h, rest, stack => by
      rw [allHitsEntries, Bool.and_eq_true] at h
      rw [potEntries, List.append_assoc, quiet_inl store v h.1,
        quiet_inlEntries store m' h.2]
      simp [inlFEntries]
end

mutual
/-- The same decomposition for the flattened at-most-once machine: with no
misses the seen set is irrelevant and the run matches inlF. -/
theorem amo_inl (store : Cid → Option Ipld) (seen : List Cid) :
    (n : Ipld) → allHits store n = true → ∀ (rest stack : List Ipld),
      amoGo store seen (pot n ++ rest) stack = amoGo store seen rest (inlF store n :: stack)
  | .null, _, rest, stack => rfl
  | .bool b, _, rest, stack => rfl
  | .integer i, _, rest, stack => rfl
  | .float f, _, rest, stack => rfl
  | .bytes bs, _, rest, stack => rfl
  | .str s, _, rest, stack => rfl
  | .link c, h, rest, stack => by
      rw [allHits] at h
      rcases hx : store c with _ | v
      · rw [hx] at h
        simp at h
      · rw [show pot (.link c) = [.link c] from rfl, List.singleton_append]
        rw [show amoGo store seen (.link c :: rest) stack
            = amoGo store seen rest (wrapperFor c v :: stack) from by rw [amoGo, hx]]
        rw [show inlF store (.link c) = wrapperFor c v from by rw [inlF, hx]]
  | .list xs, h, rest, stack => by
      rw [pot, List.append_assoc, List.singleton_append,
        amo_inlList store seen xs (by simpa [allHits] using h)]
      rw [amoGo, if_pos (by simp [inlFList_length])]
      rw [List.take_left' (by simp [inlFList_length]),
        List.drop_left' (by simp [inlFList_length]), List.reverse_reverse]
      rw [show inlF store (.list xs) = .list (inlFList store xs) from rfl]
  | .map m, h, rest, stack => by
      rw [pot, List.append_assoc, List.singleton_append,
        amo_inlEntries store seen m (by simpa [allHits] using h)]
      rw [amoGo, if_pos (by simp [inlFEntries_length])]
      rw [List.take_left' (by simp [inlFEntries_length]),
        List.drop_left' (by simp [inlFEntries_length]), List.reverse_reverse]
      rw [show m.map Prod.fst = (inlFEntries store m).map Prod.fst from
        (inlFEntries_keys store m).symm, zip_fst_snd]
      rw [show inlF store (.map m) = .map (inlFEntries store m) from rfl]

theorem amo_inlList (store : Cid → Option Ipld) (seen : List Cid) :
    (xs : List Ipld) → allHitsList store xs = true → ∀ (rest stack : List Ipld),
      amoGo store seen (potList xs ++ rest) stack
        = amoGo store seen rest ((inlFList store xs).reverse ++ stack)
  | [], _, rest, stack => by simp [potList, inlFList]
  | x :: xs', h, rest, stack => by
      rw [allHitsList, Bool.and_eq_true] at h
      rw [potList, List.append_assoc, amo_inl store seen x h.1,
        amo_inlList store seen xs' h.2]
      simp [inlFList]

theorem amo_inlEntries (store : Cid → Option Ipld) (seen : List Cid) :
    (m : List (String × Ipld)) → allHitsEntries store m = true → ∀ (rest stack : List Ipld),
      amoGo store seen (potEntries m ++ rest) stack
        = amoGo store seen rest (((inlFEntries store m).map Prod.snd).reverse ++ stack)
  | [], _, rest, stack => by simp [potEntries, inlFEntries]
  | (k, v) :: m', h, rest, stack => by
      rw [allHitsEntries, Bool.and_eq_true] at h
      rw [potEntries, List.append_assoc, amo_inl store seen v h.1,
        amo_inlEntries store seen m' h.2]
      simp [inlFEntries]
end

mutual
/-- Rewriting preserves well-formedness: delimiters become links, and
ordinary rebuilds keep the key sequence of every map. -/
theorem wf_rewriteF (cfg : CidCfg) : (n : Ipld) → ipldWF n = true →
    ipldWF (rewriteF cfg n) = true
  | .null, h => h
  | .bool _, h => h
  | .integer _, h => h
  | .float _, h => h
  | .bytes _, h => h
  | .str _, h => h
  | .link _, h => h
  | .list xs, h => by
      rw [rewriteF_list_eq]
      rw [ipldWF] at h ⊢
      exact wf_rewriteFList cfg xs h
  | .map m, h => by
      cases hd : delimParts (.map m) with
      | some pr =>
          obtain ⟨dv, oc⟩ := pr
          cases oc with
          | none =>
              have hm := delimParts_some_inherit hd
              injection hm with hm2
              subst hm2
              rw [rewriteF_delim1]
              rfl
          | some c =>
              have hm := delimParts_some_explicit hd
              injection hm with hm2
              subst hm2
              rw [rewriteF_delim2]
              rfl
      | none =>
          rw [rewriteF_map_ord cfg m hd]
          rw [ipldWF, Bool.and_eq_true] at h
          rw [ipldWF, Bool.and_eq_true]
          refine ⟨?_, ?_⟩
          · rw [keysSorted_keys_only (rewriteFEntries cfg m) m (rewriteFEntries_keys cfg m)]
            exact h.1
          · exact wf_rewriteFEntries cfg m h.2

theorem wf_rewriteFList (cfg : CidCfg) : (xs : List Ipld) → ipldWFList xs = true →
    ipldWFList (rewriteFList cfg xs) = true
  | [], h => h
  | x :: rest, h => by
      rw [ipldWFList, Bool.and_eq_true] at h
      rw [rewriteFList, ipldWFList, wf_rewriteF cfg x h.1, wf_rewriteFList cfg rest h.2]
      rfl

theorem wf_rewriteFEntries (cfg : CidCfg) : (m : List (String × Ipld)) →
    ipldWFEntries m = true → ipldWFEntries (rewriteFEntries cfg m) = true
  | [], h => h
  | (k, v) :: rest, h => by
      rw [ipldWFEntries, Bool.and_eq_true] at h
      rw [rewriteFEntries, ipldWFEntries, wf_rewriteF cfg v h.1,
        wf_rewriteFEntries cfg rest h.2]
      rfl
end

theorem pairsFList_mem (cfg : CidCfg) {c : Cid} {b : Ipld} :
    ∀ (xs : List Ipld), (c, b) ∈ pairsFList cfg xs → ∃ x ∈ xs, (c, b) ∈ pairsF cfg x
  | [], h => absurd h (List.not_mem_nil _)
  | x :: rest, h => by
      rw [pairsFList] at h
      rcases List.mem_append.mp h with h1 | h2
      · exact ⟨x, List.mem_cons_self _ _, h1⟩
      · obtain ⟨y, hy, hm⟩ := pairsFList_mem cfg rest h2
        exact ⟨y, List.mem_cons_of_mem _ hy, hm⟩

theorem pairsFEntries_mem (cfg : CidCfg) {c : Cid} {b : Ipld} :
    ∀ (m : List (String × Ipld)), (c, b) ∈ pairsFEntries cfg m →
      ∃ kv ∈ m, (c, b) ∈ pairsF cfg (Prod.snd kv)
  | [], h => absurd h (List.not_mem_nil _)
  | (k, v) :: rest, h => by
      rw [pairsFEntries] at h
      rcases List.mem_append.mp h with h1 | h2
      · exact ⟨(k, v), List.mem_cons_self _ _, h1⟩
      · obtain ⟨kv, hkv, hm⟩ := pairsFEntries_mem cfg rest h2
        exact ⟨kv, List.mem_cons_of_mem _ hkv, hm⟩

/-- Every block a well-formed document's extraction emits is itself
well-formed. -/
theorem wf_pairsF (cfg : CidCfg) : ∀ (N : Nat) (n : Ipld), numNodes n ≤ N →
    ipldWF n = true → ∀ (c : Cid) (b : Ipld), (c, b) ∈ pairsF cfg n → ipldWF b = true := by
  intro N
  induction N with
  | zero =>
      intro n hn
      have := numNodes_pos n
      omega
  | succ N IHN =>
    intro n hn hwf c b hm
    cases hd : delimParts n with
    | some pr =>
      obtain ⟨dv, oc⟩ := pr
      cases oc with
      | none =>
          have hshape := delimParts_some_inherit hd
          subst hshape
          have hwfdv : ipldWF dv = true := by
            simpa [ipldWF, ipldWFEntries, keysSorted] using hwf
          have hsz : numNodes dv ≤ N := by
            simp only [numNodes, numNodesEntries] at hn
            omega
          rw [pairsF_delim1] at hm
          rcases List.mem_append.mp hm with h1 | h2
          · exact IHN dv hsz hwfdv c b h1
          · rw [List.mem_singleton] at h2
            injection h2 with _ h3
            rw [h3]
            exact wf_rewriteF cfg dv hwfdv
      | some cx =>
          have hshape := delimParts_some_explicit hd
          subst hshape
          have hdl : keyLtB "data" "link" = true := by rfl
          have hwfdv : ipldWF dv = true := by
            simpa [ipldWF, ipldWFEntries, keysSorted, hdl] using hwf
          have hsz : numNodes dv ≤ N := by
            simp only [numNodes, numNodesEntries] at hn
            omega
          rw [pairsF_delim2] at hm
          rcases List.mem_append.mp hm with h1 | h2
          · exact IHN dv hsz hwfdv c b h1
          · rw [List.mem_singleton] at h2
            injection h2 with _ h3
            rw [h3]
            exact wf_rewriteF cfg dv hwfdv
    | none =>
      cases n with
      | null => simp [pairsF] at hm
      | bool b2 => simp [pairsF] at hm
      | integer i => simp [pairsF] at hm
      | float f => simp [pairsF] at hm
      | bytes bs => simp [pairsF] at hm
      | str s => simp [pairsF] at hm
      | link c2 => simp [pairsF] at hm
      | list xs =>
          rw [pairsF_list_eq] at hm
          obtain ⟨x, hx, hmx⟩ := pairsFList_mem cfg xs hm
          have hszx : numNodes x ≤ N := by
            have h1 := numNodes_mem_list hx
            simp only [numNodes] at hn
            omega
          exact IHN x hszx (ipldWFList_mem (by simpa [ipldWF] using hwf) hx) c b hmx
      | map m =>
          rw [pairsF_map_ord cfg m hd] at hm
          obtain ⟨kv, hkv, hmx⟩ := pairsFEntries_mem cfg m hm
          obtain ⟨k, v⟩ := kv
          have hszx : numNodes v ≤ N := by
            have h1 := numNodes_mem_entries hkv
            simp only [numNodes] at hn
            omega
          have hwfv : ipldWF v = true := by
            rw [ipldWF, Bool.and_eq_true] at hwf
            exact ipldWFEntries_mem hwf.2 hkv
          exact IHN v hszx hwfv c b hmx

theorem wf_wrapper {c : Cid} {v : Ipld} (h : ipldWF v = true) :
    ipldWF (wrapperFor c v) = true := by
  have hdl : keyLtB "data" "link" = true := by rfl
  simp [wrapperFor, ipldWF, ipldWFEntries, keysSorted, hdl, h]

mutual
/-- If every stored block is well-formed, one inlining pass preserves
well-formedness. -/
theorem wf_inlF (store : Cid → Option Ipld)
    (hs : ∀ c v, store c = some v → ipldWF v = true) :
    (x : Ipld) → ipldWF x = true → ipldWF (inlF store x) = true
  | .null, h => h
  | .bool _, h => h
  | .integer _, h => h
  | .float _, h => h
  | .bytes _, h => h
  | .str _, h => h
  | .link c, h => by
      rcases hx : store c with _ | v
      · rw [show inlF store (.link c) = .link c from by rw [inlF, hx]]
        rfl
      · rw [show inlF store (.link c) = wrapperFor c v from by rw [inlF, hx]]
        exact wf_wrapper (hs c v hx)
  | .list xs, h => by
      rw [show inlF store (.list xs) = .list (inlFList store xs) from rfl]
      rw [ipldWF] at h ⊢
      exact wf_inlFList store hs xs h
  | .map m, h => by
      rw [show inlF store (.map m) = .map (inlFEntries store m) from rfl]
      rw [ipldWF, Bool.and_eq_true] at h
      rw [ipldWF, Bool.and_eq_true]
      refine ⟨?_, ?_⟩
      · rw [keysSorted_keys_only (inlFEntries store m) m (inlFEntries_keys store m)]
        exact h.1
      · exact wf_inlFEntries store hs m h.2

theorem wf_inlFList (store : Cid → Option Ipld)
    (hs : ∀ c v, store c = some v → ipldWF v = true) :
    (xs : List Ipld) → ipldWFList xs = true → ipldWFList (inlFList store xs) = true
  | [], h => h
  | x :: rest, h => by
      rw [ipldWFList, Bool.and_eq_true] at h
      rw [inlFList, ipldWFList, wf_inlF store hs x h.1, wf_inlFList store hs rest h.2]
      rfl

theorem wf_inlFEntries (store : Cid → Option Ipld)
    (hs : ∀ c v, store c = some v → ipldWF v = true) :
    (m : List (String × Ipld)) → ipldWFEntries m = true →
      ipldWFEntries (inlFEntries store m) = true
  | [], h => h
  | (k, v) :: rest, h => by
      rw [ipldWFEntries, Bool.and_eq_true] at h
      rw [inlFEntries, ipldWFEntries, wf_inlF store hs v h.1,
        wf_inlFEntries store hs rest h.2]
      rfl
end

/-- Core of the restricted round trip: on the okDoc class, re-extracting
the one-pass inlining of the rewritten root reproduces the original pairs
and root, and the rewritten root's links all hit a store that maps every
emitted id to its block. -/
theorem roundtrip_core (cfg : CidCfg) (store : Cid → Option Ipld) :
    ∀ (N : Nat) (n : Ipld), numNodes n ≤ N →
      ipldWF n = true → okDoc n = true →
      (∀ c b, (c, b) ∈ pairsF cfg n → store c = some b) →
      rewriteF cfg (inlF store (rewriteF cfg n)) = rewriteF cfg n
        ∧ pairsF cfg (inlF store (rewriteF cfg n)) = pairsF cfg n
        ∧ allHits store (rewriteF cfg n) = true := by
  intro N
  induction N with
  | zero =>
      intro n hn
      have := numNodes_pos n
      omega
  | succ N IHN =>
    intro n hn hwf hok hst
    cases hd : delimParts n with
    | some pr =>
      obtain ⟨dv, oc⟩ := pr
      cases oc with
      | none =>
          have hshape := delimParts_some_inherit hd
          subst hshape
          have hplain : plainDoc dv = true := by
            rw [okDoc, hd] at hok
            exact hok
          have hnd := plain_noDelims dv hplain
          have hrw : rewriteF cfg dv = dv := (noDelims_rewrite cfg dv hnd).1
          have hpr : pairsF cfg dv = [] := (noDelims_rewrite cfg dv hnd).2
          have hstore : store (cidNew cfg dv) = some dv := by
            apply hst
            rw [pairsF_delim1, hrw, hpr]
            simp
          rw [rewriteF_delim1, hrw, pairsF_delim1, hrw, hpr]
          rw [show inlF store (.link (cidNew cfg dv)) = wrapperFor (cidNew cfg dv) dv from by
            rw [inlF, hstore]]
          rw [show wrapperFor (cidNew cfg dv) dv
              = .map [("/", .map [("data", dv), ("link", .link (cidNew cfg dv))])] from rfl]
          rw [rewriteF_delim2, pairsF_delim2, hrw, hpr]
          refine ⟨rfl, rfl, ?_⟩
          rw [allHits, hstore]
          rfl
      | some cx =>
          have hshape := delimParts_some_explicit hd
          subst hshape
          have hplain : plainDoc dv = true := by
            rw [okDoc, hd] at hok
            exact hok
          have hnd := plain_noDelims dv hplain
          have hrw : rewriteF cfg dv = dv := (noDelims_rewrite cfg dv hnd).1
          have hpr : pairsF cfg dv = [] := (noDelims_rewrite cfg dv hnd).2
          have hstore : store cx = some dv := by
            apply hst
            rw [pairsF_delim2, hrw, hpr]
            simp
          rw [rewriteF_delim2, pairsF_delim2, hrw, hpr]
          rw [show inlF store (.link cx) = wrapperFor cx dv from by rw [inlF, hstore]]
          rw [show wrapperFor cx dv
              = .map [("/", .map [("data", dv), ("link", .link cx)])] from rfl]
          rw [rewriteF_delim2, pairsF_delim2, hrw, hpr]
          refine ⟨rfl, rfl, ?_⟩
          rw [allHits, hstore]
          rfl
    | none =>
      cases n with
      | link c => simp [okDoc] at hok
      | null => exact ⟨rfl, rfl, rfl⟩
      | bool b => exact ⟨rfl, rfl, rfl⟩
      | integer i => exact ⟨rfl, rfl, rfl⟩
      | float f => exact ⟨rfl, rfl, rfl⟩
      | bytes bs => exact ⟨rfl, rfl, rfl⟩
      | str s => exact ⟨rfl, rfl, rfl⟩
      | list xs =>
          have haux : ∀ (ys : List Ipld),
              (∀ x ∈ ys, numNodes x ≤ N) →
              ipldWFList ys = true → okDocList ys = true →
              (∀ c b, (c, b) ∈ pairsFList cfg ys → store c = some b) →
              rewriteFList cfg (inlFList store (rewriteFList cfg ys)) = rewriteFList cfg ys
                ∧ pairsFList cfg (inlFList store (rewriteFList cfg ys)) = pairsFList cfg ys
                ∧ allHitsList store (rewriteFList cfg ys) = true := by
            intro ys
            induction ys with
            | nil =>
                intro _ _ _ _
                exact ⟨rfl, rfl, rfl⟩
            | cons y ys' IH2 =>
                intro hsz hwfl hokl hstl
                rw [ipldWFList, Bool.and_eq_true] at hwfl
                rw [okDocList, Bool.and_eq_true] at hokl
                have hy := IHN y (hsz y (List.mem_cons_self _ _)) hwfl.1 hokl.1
                  (fun c b hm => hstl c b (by
                    rw [pairsFList]
                    exact List.mem_append.mpr (Or.inl hm)))
                have hys := IH2 (fun x hx => hsz x (List.mem_cons_of_mem _ hx)) hwfl.2 hokl.2
                  (fun c b hm => hstl c b (by
                    rw [pairsFList]
                    exact List.mem_append.mpr (Or.inr hm)))
                refine ⟨?_, ?_, ?_⟩
                · simp only [rewriteFList, inlFList]
                  rw [hy.1, hys.1]
                · simp only [rewriteFList, inlFList, pairsFList]
                  rw [hy.2.1, hys.2.1]
                · simp only [rewriteFList, allHitsList]
                  rw [hy.2.2, hys.2.2]
                  rfl
          have h3 := haux xs
            (fun x hx => by
              have := numNodes_mem_list hx
              simp only [numNodes] at hn
              omega)
            (by simpa [ipldWF] using hwf)
            (by simpa [okDoc] using hok)
            (fun c b hm => hst c b (by rwa [pairsF_list_eq]))
          refine ⟨?_, ?_, ?_⟩
          · rw [rewriteF_list_eq,
              show inlF store (.list (rewriteFList cfg xs))
                = .list (inlFList store (rewriteFList cfg xs)) from rfl,
              rewriteF_list_eq, h3.1]
          · rw [rewriteF_list_eq,
              show inlF store (.list (rewriteFList cfg xs))
                = .list (inlFList store (rewriteFList cfg xs)) from rfl,
              pairsF_list_eq, h3.2.1, pairsF_list_eq]
          · rw [rewriteF_list_eq,
              show allHits store (.list (rewriteFList cfg xs))
                = allHitsList store (rewriteFList cfg xs) from rfl, h3.2.2]
      | map m =>
          have hok2 : (!(m.map Prod.fst == ["/"]) && okDocEntries m) = true := by
            rw [okDoc, hd] at hok
            exact hok
          rw [Bool.and_eq_true] at hok2
          have hk : (m.map Prod.fst == ["/"]) = false := by
            rcases hb : (m.map Prod.fst == ["/"]) with _ | _
            · rfl
            · rw [hb] at hok2
              simp at hok2
          have hwfe : ipldWFEntries m = true := by
            rw [ipldWF, Bool.and_eq_true] at hwf
            exact hwf.2
          have haux : ∀ (ms : List (String × Ipld)),
              (∀ kv ∈ ms, numNodes (Prod.snd kv) ≤ N) →
              ipldWFEntries ms = true → okDocEntries ms = true →
              (∀ c b, (c, b) ∈ pairsFEntries cfg ms → store c = some b) →
              rewriteFEntries cfg (inlFEntries store (rewriteFEntries cfg ms))
                  = rewriteFEntries cfg ms
                ∧ pairsFEntries cfg (inlFEntries store (rewriteFEntries cfg ms))
                  = pairsFEntries cfg ms
                ∧ allHitsEntries store (rewriteFEntries cfg ms) = true := by
            intro ms
            induction ms with
            | nil =>
                intro _ _ _ _
                exact ⟨rfl, rfl, rfl⟩
            | cons kv ms' IH2 =>
                obtain ⟨k, v⟩ := kv
                intro hsz hwfl hokl hstl
                rw [ipldWFEntries, Bool.and_eq_true] at hwfl
                rw [okDocEntries, Bool.and_eq_true] at hokl
                have hy := IHN v (hsz (k, v) (List.mem_cons_self _ _)) hwfl.1 hokl.1
                  (fun c b hm => hstl c b (by
                    rw [pairsFEntries]
                    exact List.mem_append.mpr (Or.inl hm)))
                have hys := IH2 (fun kw hx => hsz kw (List.mem_cons_of_mem _ hx)) hwfl.2 hokl.2
                  (fun c b hm => hstl c b (by
                    rw [pairsFEntries]
                    exact List.mem_append.mpr (Or.inr hm)))
                refine ⟨?_, ?_, ?_⟩
                · simp only [rewriteFEntries, inlFEntries]
                  rw [hy.1, hys.1]
                · simp only [rewriteFEntries, inlFEntries, pairsFEntries]
                  rw [hy.2.1, hys.2.1]
                · simp only [rewriteFEntries, allHitsEntries]
                  rw [hy.2.2, hys.2.2]
                  rfl
          have h3 := haux m
            (fun kv hkv => by
              obtain ⟨k, v⟩ := kv
              have := numNodes_mem_entries hkv
              simp only [numNodes] at hn
              show numNodes v ≤ N
              omega)
            hwfe hok2.2
            (fun c b hm => hst c b (by rwa [pairsF_map_ord cfg m hd]))
          have hk1 : ((rewriteFEntries cfg m).map Prod.fst == ["/"]) = false := by
            rw [rewriteFEntries_keys]
            exact hk
          have hd1 : delimParts (.map (rewriteFEntries cfg m)) = none :=
            delimParts_none_of_keys hk1
          have hk2 : ((inlFEntries store (rewriteFEntries cfg m)).map Prod.fst == ["/"])
              = false := by
            rw [inlFEntries_keys, rewriteFEntries_keys]
            exact hk
          have hd2 : delimParts (.map (inlFEntries store (rewriteFEntries cfg m))) = none :=
            delimParts_none_of_keys hk2
          refine ⟨?_, ?_, ?_⟩
          · rw [rewriteF_map_ord cfg m hd,
              show inlF store (.map (rewriteFEntries cfg m))
                = .map (inlFEntries store (rewriteFEntries cfg m)) from rfl,
              rewriteF_map_ord cfg _ hd2, h3.1]
          · rw [rewriteF_map_ord cfg m hd,
              show inlF store (.map (rewriteFEntries cfg m))
                = .map (inlFEntries store (rewriteFEntries cfg m)) from rfl,
              pairsF_map_ord cfg _ hd2, h3.2.1, pairsF_map_ord cfg m hd]
          · rw [rewriteF_map_ord cfg m hd,
              show allHits store (.map (rewriteFEntries cfg m))
                = allHitsEntries store (rewriteFEntries cfg m) from rfl, h3.2.2]

/-- The full pair list an Extractor run emits for n: delimiter pairs then
the root pair. -/
def rootPairs (cfg : CidCfg) (n : Ipld) : List (Cid × Ipld) :=
  pairsF cfg n ++ [(cidNew cfg (rewriteF cfg n), rewriteF cfg n)]

/-- C1 amended.  For every well-formed node in the okDoc class (no Link
leaves outside delimiters, every single-key "/" map a recognised delimiter
with plain data) whose emitted ids are pairwise distinct: extraction yields
P, and with a store populated with exactly P, the inliner on the root block
completes without suspension under the quiet kernel (shared by naive and
at-least-once) and under at-most-once, and extracting the resulting
document yields exactly P again. -/
theorem extract_inline_roundtrip (cfg : CidCfg) (n : Ipld)
    (hwf : ipldWF n = true) (hok : okDoc n = true)
    (hnd : ((rootPairs cfg n).map Prod.fst).Nodup) :
    extractRun cfg n = some (rootPairs cfg n)
      ∧ quietRun (storeOf (rootPairs cfg n)) (rewriteF cfg n)
          = .done (some (inlF (storeOf (rootPairs cfg n)) (rewriteF cfg n)))
      ∧ amoRun (storeOf (rootPairs cfg n)) (rewriteF cfg n)
          = .done (some (inlF (storeOf (rootPairs cfg n)) (rewriteF cfg n)))
      ∧ extractRun cfg (inlF (storeOf (rootPairs cfg n)) (rewriteF cfg n))
          = some (rootPairs cfg n) := by
  have hstp : ∀ (c : Cid) (b : Ipld), (c, b) ∈ pairsF cfg n →
      storeOf (rootPairs cfg n) c = some b := by
    intro c b hm
    exact storeOf_lookup hnd (List.mem_append.mpr (Or.inl hm))
  have core := roundtrip_core cfg (storeOf (rootPairs cfg n)) (numNodes n) n le_rfl hwf hok hstp
  refine ⟨extract_run_eq cfg n hwf, ?_, ?_, ?_⟩
  · rw [quietRun, postOrderSeq_eq_pot]
    have h2 := quiet_inl (storeOf (rootPairs cfg n)) (rewriteF cfg n) core.2.2 [] []
    rw [List.append_nil] at h2
    rw [h2]
    rfl
  · rw [amoRun, postOrderSeq_eq_pot]
    have h2 := amo_inl (storeOf (rootPairs cfg n)) [] (rewriteF cfg n) core.2.2 [] []
    rw [List.append_nil] at h2
    rw [h2]
    rfl
  · have hv : ∀ (c : Cid) (v : Ipld), storeOf (rootPairs cfg n) c = some v →
        ipldWF v = true := by
      intro c v hcv
      rcases List.mem_append.mp (storeOf_mem hcv) with h1 | h2
      · exact wf_pairsF cfg (numNodes n) n le_rfl hwf c v h1
      · rw [List.mem_singleton] at h2
        injection h2 with _ h3
        rw [h3]
        exact wf_rewriteF cfg n hwf
    have hwf2 : ipldWF (inlF (storeOf (rootPairs cfg n)) (rewriteF cfg n)) = true :=
      wf_inlF (storeOf (rootPairs cfg n)) hv (rewriteF cfg n) (wf_rewriteF cfg n hwf)
    have h4 := extract_run_eq cfg (inlF (storeOf (rootPairs cfg n)) (rewriteF cfg n)) hwf2
    rw [core.1, core.2.1] at h4
    exact h4

theorem extract_inline_roundtrip_witness :
    (ipldWF (.map [("/", .map [("data", .list [.integer 1, .integer 2, .integer 3])])]) = true
      ∧ okDoc (.map [("/", .map [("data", .list [.integer 1, .integer 2, .integer 3])])]) = true
      ∧ ((rootPairs flatCfg
          (.map [("/", .map [("data", .list [.integer 1, .integer 2, .integer 3])])])).map
            Prod.fst).Nodup)
    ∧ (extractRun flatCfg (.map [("/", .map [("data", .list [.integer 1, .integer 2, .integer 3])])])
          = some (rootPairs flatCfg
              (.map [("/", .map [("data", .list [.integer 1, .integer 2, .integer 3])])]))
      ∧ quietRun (storeOf (rootPairs flatCfg
            (.map [("/", .map [("data", .list [.integer 1, .integer 2, .integer 3])])])))
          (rewriteF flatCfg (.map [("/", .map [("data", .list [.integer 1, .integer 2, .integer 3])])]))
          = .done (some (inlF (storeOf (rootPairs flatCfg
              (.map [("/", .map [("data", .list [.integer 1, .integer 2, .integer 3])])])))
              (rewriteF flatCfg (.map [("/", .map [("data", .list [.integer 1, .integer 2, .integer 3])])]))))
      ∧ amoRun (storeOf (rootPairs flatCfg
            (.map [("/", .map [("data", .list [.integer 1, .integer 2, .integer 3])])])))
          (rewriteF flatCfg (.map [("/", .map [("data", .list [.integer 1, .integer 2, .integer 3])])]))
          = .done (some (inlF (storeOf (rootPairs flatCfg
              (.map [("/", .map [("data", .list [.integer 1, .integer 2, .integer 3])])])))
              (rewriteF flatCfg (.map [("/", .map [("data", .list [.integer 1, .integer 2, .integer 3])])]))))
      ∧ extractRun flatCfg (inlF (storeOf (rootPairs flatCfg
            (.map [("/", .map [("data", .list [.integer 1, .integer 2, .integer 3])])])))
            (rewriteF flatCfg (.map [("/", .map [("data", .list [.integer 1, .integer 2, .integer 3])])])))
          = some (rootPairs flatCfg
              (.map [("/", .map [("data", .list [.integer 1, .integer 2, .integer 3])])]))) :=
  ⟨⟨by rfl, by rfl, by decide⟩,
    extract_inline_roundtrip flatCfg
      (.map [("/", .map [("data", .list [.integer 1, .integer 2, .integer 3])])])
      (by rfl) (by rfl) (by decide)⟩

/-- The E4 document: a nested inherit-form delimiter. -/
def e4doc : Ipld :=
  .map [("/", .map [("data",
    .list [.integer 1, .map [("/", .map [("data", .list [.str "a", .str "b"])])]])])]

/-- The three blocks E4 extracts to, innermost first. -/
def e4inner : Ipld := .list [.str "a", .str "b"]

def e4mid : Ipld := .list [.integer 1, .link (cidNew flatCfg e4inner)]

def e4P : List (Cid × Ipld) :=
  [(cidNew flatCfg e4inner, e4inner),
   (cidNew flatCfg e4mid, e4mid),
   (cidNew flatCfg (.link (cidNew flatCfg e4mid)), .link (cidNew flatCfg e4mid))]

/-- The document the inliner produces from E4's root block: one level of
wrapping only; the fetched block's own links are not expanded further. -/
def e4inl : Ipld := wrapperFor (cidNew flatCfg e4mid) e4mid

/-- C1 counterexample.  On the nested-delimiter document E4, extraction
yields the three pairs P; with the store populated with exactly P the
inliner completes and produces a document, but extracting that document
does not yield P again: the inner block's pair is missing, because the
one-pass inliner embeds fetched blocks verbatim without descending into
their links. -/
theorem extract_inline_roundtrip_counterexample :
    extractRun flatCfg e4doc = some e4P
      ∧ quietRun (storeOf e4P) (rewriteF flatCfg e4doc) = .done (some e4inl)
      ∧ extractRun flatCfg e4inl ≠ some e4P := by
  refine ⟨?_, ?_, ?_⟩
  · rw [extractRun, postOrderSeq_eq_pot]
    rfl
  · rw [quietRun, postOrderSeq_eq_pot]
    rfl
  · intro h
    rw [extractRun, postOrderSeq_eq_pot] at h
    have h2 := congrArg (fun o => (Option.map List.length o).getD 0) h
    exact absurd h2 (by decide)

/-- The E1 document: no recognised delimiter anywhere; the inner "/" map
carries a three-shaped body (extra key, no "link"). -/
def e1doc : Ipld :=
  .map [("a", .list [.str "b", .integer 1, .integer 2, .map [("c", .str "d")]]),
        ("e", .map [("/", .map [("data", .integer 123), ("don't match", .integer 42)])])]

/-- C5.  A map under a "/" key that is not an exact delimiter shape is not
treated as a delimiter: no pair is emitted for it and it is rebuilt as
ordinary map data (with its children processed as usual); in particular the
Extractor's entire output on the E1 input is the single root pair with the
input unchanged. -/
theorem malformed_delimiters_ordinary (cfg : CidCfg) :
    (∀ (v : Ipld), delimParts (.map [("/", v)]) = none →
        rewriteF cfg (.map [("/", v)]) = .map [("/", rewriteF cfg v)]
          ∧ pairsF cfg (.map [("/", v)]) = pairsF cfg v)
      ∧ extractRun cfg e1doc = some [(cidNew cfg e1doc, e1doc)] := by
  constructor
  · intro v hv
    constructor
    · rw [rewriteF_map_ord cfg _ hv]
      rfl
    · rw [pairsF_map_ord cfg _ hv]
      simp [pairsFEntries]
  · have hwf : ipldWF e1doc = true := by rfl
    have hnd : noDelims e1doc = true := by rfl
    have h := extract_run_eq cfg e1doc hwf
    have h2 := noDelims_rewrite cfg e1doc hnd
    rw [h2.1, h2.2] at h
    simpa using h

theorem malformed_delimiters_witness :
    delimParts (.map [("/", .map [("link", .link e5X)])]) = none
      ∧ (rewriteF wCfg (.map [("/", .map [("link", .link e5X)])])
            = .map [("/", rewriteF wCfg (.map [("link", .link e5X)]))]
          ∧ pairsF wCfg (.map [("/", .map [("link", .link e5X)])])
            = pairsF wCfg (.map [("link", .link e5X)])) :=
  ⟨by rfl, (malformed_delimiters_ordinary wCfg).1 (.map [("link", .link e5X)]) (by rfl)⟩

end InlineIpld
